import Mathlib

/-!
# A shallow embedding of the INI reader/writer

This file embeds, in Lean, the data model (`ini_format.rs`), the recursive
descent parser (`reader.rs`) and the serializer (`writer.rs`) of the INI
repository, and proves the specification claims about them.

Modelling conventions:
* Rust `String`s holding document text are modelled as `List Char`; error
  messages stay Lean `String`s built by the same `format!` shapes as the
  source.
* The input file stream (`BufferedReader<File>`) is modelled as the
  `stream : List Char` field of the reader state: `read_char` pops one
  character, failing (end of file) exactly when the list is empty, which is
  the only read failure a finite in-memory stream can produce.
* Each `while` loop of the source becomes a structurally recursive function
  over an explicit fuel parameter, so that every definition is executable by
  `decide`/`rfl`.  Call sites hand each loop `stream.length + 2` fuel; the
  termination development below proves this fuel is never exhausted (the
  `none` fallbacks are dead code), which is exactly the termination argument
  of the source's loops: every iteration consumes at least one character or
  clears the `good` flag.
-/

namespace INI

/-- `char::is_whitespace` of the source language: the Unicode `White_Space`
property (U+0009–U+000D, U+0020, U+0085, U+00A0, U+1680, U+2000–U+200A,
U+2028, U+2029, U+202F, U+205F, U+3000).  Note that `'\n'` (U+000A) is
whitespace. -/
def is_whitespace (c : Char) : Bool :=
  (9 ≤ c.toNat && c.toNat ≤ 13) || c.toNat = 32 || c.toNat = 133 ||
  c.toNat = 160 || c.toNat = 5760 || (8192 ≤ c.toNat && c.toNat ≤ 8202) ||
  c.toNat = 8232 || c.toNat = 8233 || c.toNat = 8239 || c.toNat = 8287 ||
  c.toNat = 12288

/-- `str::trim`: remove leading and trailing whitespace. -/
def trim (l : List Char) : List Char :=
  ((l.dropWhile is_whitespace).reverse.dropWhile is_whitespace).reverse

/-! ## The data model (`ini_format.rs`) -/

/-- `ini_format::SectionEntry`: a sub-entry of a section is either a comment
or a key (name-value pair). -/
inductive SectionEntry where
  | Comment (text : List Char)
  | Key (name value : List Char)
deriving DecidableEq

/-- `ini_format::Section`: a section has a name and a list of sub-entries. -/
structure Section where
  name : List Char
  entries : List SectionEntry
deriving DecidableEq

/-- `ini_format::Entry`: a top-level entry is either a comment or a
section. -/
inductive Entry where
  | Section (s : Section)
  | Comment (text : List Char)
deriving DecidableEq

/-- `ini_format::IniFile`: an INI file is a list of top-level entries. -/
abbrev IniFile := List Entry

/-! ## Parser result types (`reader.rs`) -/

/-- `reader::IniItem`: intermediate values threaded up through the
recursive-descent calls. -/
inductive IniItem where
  | Entry (e : Entry)
  | Section (s : Section)
  | SectionEntry (se : SectionEntry)
  | SectionName (name : List Char)
  | Key (name value : List Char)
  | Comment (text : List Char)
deriving DecidableEq

/-- `reader::MatchResult`. -/
inductive MatchResult where
  | Ok
  | Err (e : String)
deriving DecidableEq

/-- `reader::ParseResult`. -/
inductive ParseResult where
  | Ok
  | StepOk (item : IniItem)
  | Err (e : String)
deriving DecidableEq

/-- `reader::ReadResult`. -/
inductive ReadResult where
  | Ok (s : List Char)
  | Err (e : String)
deriving DecidableEq

/-- `reader::IniReader`: the parser state.  `stream` is the unread remainder
of the input file, `next_char` the one-character lookahead, `ini` the
accumulated document, `good` the stream-health flag. -/
structure IniReader where
  stream : List Char
  next_char : Char
  ini : IniFile
  good : Bool
deriving DecidableEq

/-- `IniReader::new`: lookahead `' '`, empty document, `good = true`,
positioned at the start of the input. -/
def init_reader (input : List Char) : IniReader :=
  { stream := input, next_char := ' ', ini := [], good := true }

/-! ## Helper functions of the reader -/

/-- The loop of `get_next_char`: while the lookahead is whitespace, read one
character; a failed read clears `good`.  Fuel-indexed; `none` means the fuel
ran out (proved unreachable for fuel `> stream.length`). -/
def gnc_loop : Nat → IniReader → Option IniReader
  | 0, _ => none
  | fuel + 1, s =>
    if is_whitespace s.next_char then
      match s.stream with
      | [] => some { s with good := false }
      | c :: rest => gnc_loop fuel { s with next_char := c, stream := rest }
    else
      some s

/-- `IniReader::get_next_char`: set the lookahead to `' '` (whitespace),
then read until a non-whitespace character arrives or the stream ends.  The
fallback branch is dead code (`gnc_loop_total` below). -/
def get_next_char (s : IniReader) : IniReader :=
  match gnc_loop (s.stream.length + 1) { s with next_char := ' ' } with
  | some s₂ => s₂
  | none => { s with good := false }

/-- The quoted-character fragment of a `format!("'{}'", c)` error message. -/
def quote_char (c : Char) : String :=
  String.singleton (Char.ofNat 39) ++ String.singleton c ++ String.singleton (Char.ofNat 39)

/-- The message of `match_token`:
`format!("In {}: expected '{}', got '{}'", fun, match_char, next_char)`. -/
def err_expected (fn : String) (expected got : Char) : String :=
  "In " ++ fn ++ ": expected " ++ quote_char expected ++ ", got " ++ quote_char got

/-- `IniReader::match_token`: compare the lookahead with `match_char`; on
success advance, on mismatch report a syntax error naming the producing
rule, the expected token and the actual character. -/
def match_token (s : IniReader) (match_char : Char) (fn : String) :
    MatchResult × IniReader :=
  if s.next_char ≠ match_char then
    (MatchResult.Err (err_expected fn match_char s.next_char), s)
  else
    (MatchResult.Ok, get_next_char s)

/-- `BufferedReader::read_line`, first half: split the stream at the first
`'\n'` (kept with the line). -/
def take_line : List Char → List Char × List Char
  | [] => ([], [])
  | c :: rest =>
    if c = '\n' then ([c], rest)
    else (c :: (take_line rest).1, (take_line rest).2)

/-- `BufferedReader::read_line`: reading zero bytes (stream already empty)
is the end-of-file error; otherwise return the line up to and including the
newline, or up to the end of the stream. -/
def read_line (stream : List Char) : Option (List Char × List Char) :=
  match stream with
  | [] => none
  | _ => some (take_line stream)

/-- The leading whitespace-skipping loop of `read_rest`. -/
def read_rest_skip : Nat → IniReader → Option IniReader
  | 0, _ => none
  | fuel + 1, s =>
    if s.good = true ∧ is_whitespace s.next_char then
      read_rest_skip fuel (get_next_char s)
    else
      some s

/-- `IniReader::read_rest`: skip whitespace, then return the lookahead
followed by the rest of the current line, advancing the lookahead past the
line.  A failing `read_line` is wrapped as an IO error. -/
def read_rest (s : IniReader) : ReadResult × IniReader :=
  match read_rest_skip (s.stream.length + 2) s with
  | none => (ReadResult.Err "fuel exhausted", s)
  | some s₁ =>
    match read_line s₁.stream with
    | none => (ReadResult.Err "IO error: end of file", s₁)
    | some (line, rest) =>
      let out := s₁.next_char :: line
      (ReadResult.Ok out, get_next_char { s₁ with stream := rest })

/-! ## Parser productions -/

/-- `IniReader::parse_comment`: match `';'`, read the rest of the line,
trim it; at the root the comment becomes a top-level `Entry`, inside a
section a `SectionEntry`. -/
def parse_comment (s : IniReader) (root : Bool) : ParseResult × IniReader :=
  match match_token s ';' "parse_comment" with
  | (MatchResult.Err e, s₁) => (ParseResult.Err e, s₁)
  | (MatchResult.Ok, s₁) =>
    match read_rest s₁ with
    | (ReadResult.Err e, s₂) => (ParseResult.Err e, s₂)
    | (ReadResult.Ok str, s₂) =>
      let comment := trim str
      if root then
        (ParseResult.StepOk (IniItem.Entry (Entry.Comment comment)), s₂)
      else
        (ParseResult.StepOk (IniItem.SectionEntry (SectionEntry.Comment comment)), s₂)

/-- The character-accumulating loops of `parse_section_name` (stop `']'`)
and `parse_key` (stop `'='`): while `good` and the lookahead differs from
the stop character, push the lookahead and advance. -/
def scan_until : Nat → Char → IniReader → List Char → Option (IniReader × List Char)
  | 0, _, _, _ => none
  | fuel + 1, stop, s, acc =>
    if s.good = true ∧ s.next_char ≠ stop then
      scan_until fuel stop (get_next_char s) (acc ++ [s.next_char])
    else
      some (s, acc)

/-- `IniReader::parse_section_name`: match `'['`, accumulate up to `']'`,
match `']'`.  Both token matches report under the rule name
`"parse_section"`, as in the source. -/
def parse_section_name (s : IniReader) : ParseResult × IniReader :=
  match match_token s '[' "parse_section" with
  | (MatchResult.Err e, s₁) => (ParseResult.Err e, s₁)
  | (MatchResult.Ok, s₁) =>
    match scan_until (s₁.stream.length + 2) ']' s₁ [] with
    | none => (ParseResult.Err "fuel exhausted", s₁)
    | some (s₂, section_name) =>
      match match_token s₂ ']' "parse_section" with
      | (MatchResult.Err e, s₃) => (ParseResult.Err e, s₃)
      | (MatchResult.Ok, s₃) =>
        (ParseResult.StepOk (IniItem.SectionName section_name), s₃)

/-- `IniReader::parse_key`: accumulate the name up to `'='`, match `'='`,
read and trim the rest of the line as the value. -/
def parse_key (s : IniReader) : ParseResult × IniReader :=
  match scan_until (s.stream.length + 2) '=' s [] with
  | none => (ParseResult.Err "fuel exhausted", s)
  | some (s₁, key_name) =>
    match match_token s₁ '=' "parse_key" with
    | (MatchResult.Err e, s₂) => (ParseResult.Err e, s₂)
    | (MatchResult.Ok, s₂) =>
      match read_rest s₂ with
      | (ReadResult.Err e, s₃) => (ParseResult.Err e, s₃)
      | (ReadResult.Ok str, s₃) =>
        (ParseResult.StepOk (IniItem.Key key_name (trim str)), s₃)

/-- The arm of `parse_section`'s result match that pushes a parsed item
onto `section.entries`: only the (never produced) `IniItem::Comment` and
the `IniItem::Key` variants push; every other item, including the
`IniItem::SectionEntry` that `parse_comment(false)` actually returns, is
discarded by the catch-all arm. -/
def section_push : IniItem → List SectionEntry
  | IniItem.Comment c => [SectionEntry.Comment c]
  | IniItem.Key n v => [SectionEntry.Key n v]
  | _ => []

/-- The body loop of `parse_section`: while `good`, dispatch on the
lookahead (`';'` comment, `'['` end of section, otherwise key), abort on
error, and push the arms of the source's result match. -/
def parse_section_loop : Nat → IniReader → List SectionEntry →
    Option (Except String (List SectionEntry) × IniReader)
  | 0, _, _ => none
  | fuel + 1, s, acc =>
    if s.good = true then
      if s.next_char = ';' then
        match parse_comment s false with
        | (ParseResult.Err e, s₁) => some (Except.error e, s₁)
        | (ParseResult.StepOk item, s₁) =>
          parse_section_loop fuel s₁ (acc ++ section_push item)
        | (ParseResult.Ok, s₁) => parse_section_loop fuel s₁ acc
      else if s.next_char = '[' then
        some (Except.ok acc, s)
      else
        match parse_key s with
        | (ParseResult.Err e, s₁) => some (Except.error e, s₁)
        | (ParseResult.StepOk item, s₁) =>
          parse_section_loop fuel s₁ (acc ++ section_push item)
        | (ParseResult.Ok, s₁) => parse_section_loop fuel s₁ acc
    else
      some (Except.ok acc, s)

/-- `IniReader::parse_section`: parse the header, then the body loop; a
parsed `SectionName` sets the name (otherwise it stays empty), and the
section becomes a top-level `Entry`. -/
def parse_section (s : IniReader) : ParseResult × IniReader :=
  match parse_section_name s with
  | (ParseResult.Err e, s₁) => (ParseResult.Err e, s₁)
  | (r, s₁) =>
    let section_name :=
      match r with
      | ParseResult.StepOk (IniItem.SectionName n) => n
      | _ => []
    match parse_section_loop (s₁.stream.length + 2) s₁ [] with
    | none => (ParseResult.Err "fuel exhausted", s₁)
    | some (Except.error e, s₂) => (ParseResult.Err e, s₂)
    | some (Except.ok entries, s₂) =>
      (ParseResult.StepOk
        (IniItem.Entry (Entry.Section { name := section_name, entries := entries })), s₂)

/-- The top-level loop of `parse`: while `good`, dispatch on the lookahead
(`';'` root comment, otherwise section); abort on error; push parsed
top-level `Entry` items onto `ini`. -/
def parse_loop : Nat → IniReader → Option (ParseResult × IniReader)
  | 0, _ => none
  | fuel + 1, s =>
    if s.good = true then
      match (if s.next_char = ';' then parse_comment s true else parse_section s) with
      | (ParseResult.Err e, s₁) => some (ParseResult.Err e, s₁)
      | (ParseResult.StepOk (IniItem.Entry entry), s₁) =>
        parse_loop fuel { s₁ with ini := s₁.ini ++ [entry] }
      | (ParseResult.StepOk _, s₁) => parse_loop fuel s₁
      | (ParseResult.Ok, s₁) => parse_loop fuel s₁
    else
      some (ParseResult.Ok, s)

/-- `IniReader::parse`: prime the lookahead, then run the top-level loop. -/
def parse (s : IniReader) : ParseResult × IniReader :=
  let s₁ := get_next_char s
  match parse_loop (s₁.stream.length + 2) s₁ with
  | none => (ParseResult.Err "fuel exhausted", s₁)
  | some r => r

/-- Parse a whole input from a fresh reader. -/
def parse_file (input : List Char) : ParseResult × IniReader :=
  parse (init_reader input)

/-! ## The serializer (`writer.rs`) -/

/-- The body of `write_section`'s entry loop: `"; {}"` for a comment,
`"{} = {}"` for a key (each `println!` appends a newline). -/
def write_section_entry : SectionEntry → List Char
  | SectionEntry.Comment c => ';' :: ' ' :: (c ++ ['\n'])
  | SectionEntry.Key n v => n ++ (' ' :: '=' :: ' ' :: (v ++ ['\n']))

/-- The entry loop of `write_section`. -/
def write_entries : List SectionEntry → List Char
  | [] => []
  | e :: rest => write_section_entry e ++ write_entries rest

/-- `writer::write_section`: the `"[{}]"` header line followed by the
rendered entries. -/
def write_section (sec : Section) : List Char :=
  '[' :: (sec.name ++ (']' :: '\n' :: write_entries sec.entries))

/-- One iteration of `write_ini_file`'s loop: a section is rendered by
`write_section` followed by `println!("")` (one blank line); a top-level
comment as `"; {}"`. -/
def write_entry : Entry → List Char
  | Entry.Section sec => write_section sec ++ ['\n']
  | Entry.Comment c => ';' :: ' ' :: (c ++ ['\n'])

/-- `writer::write_ini_file`: render each top-level entry in order. -/
def write_ini_file : IniFile → List Char
  | [] => []
  | e :: rest => write_entry e ++ write_ini_file rest

/-! ## Specification predicates -/

/-- Loop measure: remaining stream length, plus one while the stream is
still healthy.  Every loop iteration of the parser strictly decreases it. -/
def mu (s : IniReader) : Nat := s.stream.length + (if s.good then 1 else 0)

/-- The state reached by priming the lookahead over a remaining stream `l`
with accumulated document `i`: `get_next_char` from a healthy reader.  Every
inter-token state of a parse of well-formed input has this form. -/
def mid_state (l : List Char) (i : IniFile) : IniReader :=
  get_next_char { stream := l, next_char := ' ', ini := i, good := true }

/-- `s` is the state of a reader that has skipped the leading whitespace of
`X`: either the lookahead holds the first non-whitespace character of `X`
with the rest still unread, or `X` was all whitespace and the stream
ended. -/
def skip_to (X : List Char) (i : IniFile) (s : IniReader) : Prop :=
  (∃ c rest, X.dropWhile is_whitespace = c :: rest ∧
    s = { stream := rest, next_char := c, ini := i, good := true }) ∨
  (X.dropWhile is_whitespace = [] ∧ s.stream = [] ∧ s.good = false ∧ s.ini = i)

/-- Reachability invariant of the reader state: while `good`, the lookahead
is never whitespace (it was produced by `get_next_char`), and once `good`
is cleared the stream is exhausted. -/
def reader_inv (s : IniReader) : Prop :=
  (s.good = true → is_whitespace s.next_char = false) ∧
  (s.good = false → s.stream = [])

/-- Text the parser stores for a comment or a key value: nonempty, trimmed,
and free of newlines. -/
def wf_text (t : List Char) : Prop := t ≠ [] ∧ trim t = t ∧ '\n' ∉ t

/-- A key name as the parser stores it: whitespace-free and `'='`-free
characters, and (because of the section-body dispatch) never starting with
`';'` or `'['`. -/
def wf_key_name (n : List Char) : Prop :=
  (∀ c ∈ n, is_whitespace c = false ∧ c ≠ '=') ∧
  (∀ c, n.head? = some c → c ≠ ';' ∧ c ≠ '[')

/-- A section name as the parser stores it: whitespace-free and `']'`-free. -/
def wf_section_name (n : List Char) : Prop :=
  ∀ c ∈ n, is_whitespace c = false ∧ c ≠ ']'

/-- A section entry as a successful parse can produce it: always a key
(the in-section comment arm of `parse_section` is dead), with a
well-formed name and value. -/
def produced_entry (e : SectionEntry) : Prop :=
  match e with
  | SectionEntry.Key n v => wf_key_name n ∧ wf_text v
  | SectionEntry.Comment _ => False

/-- A document as a successful parse can produce it: top-level comments
first, then sections, with well-formed fields throughout. -/
def produced_doc (d : IniFile) : Prop :=
  ∃ (cs : List (List Char)) (ss : List Section),
    d = cs.map Entry.Comment ++ ss.map Entry.Section ∧
    (∀ t ∈ cs, wf_text t) ∧
    (∀ sec ∈ ss, wf_section_name sec.name ∧ ∀ e ∈ sec.entries, produced_entry e)

/-- The round-trip restriction of the specification: a field character may
not be `';'`, `'['`, `']'`, `'='` or a newline. -/
def clean_char (c : Char) : Bool :=
  !(c = ';' || c = '[' || c = ']' || c = '=' || c = '\n')

/-- All characters of a field satisfy the round-trip restriction. -/
def clean_text (t : List Char) : Bool := t.all clean_char

/-- The round-trip restriction applied to every field of an entry. -/
def clean_entry : Entry → Bool
  | Entry.Comment t => clean_text t
  | Entry.Section sec =>
    clean_text sec.name &&
    sec.entries.all (fun se =>
      match se with
      | SectionEntry.Comment t => clean_text t
      | SectionEntry.Key n v => clean_text n && clean_text v)

/-- The round-trip restriction applied to every field of a document. -/
def clean_doc (d : IniFile) : Bool := d.all clean_entry

/-- The IO-class errors of the reader are exactly the strings built by
`format!("IO error: {}", e)` in `read_rest`; syntax errors are built by
`match_token` and start with `"In "`. -/
def is_io_error (e : String) : Bool := e.data.take 8 == "IO error".data

/-- A comment or value field that round-trips: well-formed as the parser
produces it, and clean per the specification's restriction. -/
def rt_text (t : List Char) : Prop := wf_text t ∧ clean_text t = true

/-- A section entry that round-trips: a key whose name characters are
non-whitespace and clean, and whose value round-trips. -/
def rt_key (e : SectionEntry) : Prop :=
  ∃ n v, e = SectionEntry.Key n v ∧
    (∀ c ∈ n, is_whitespace c = false ∧ clean_char c = true) ∧ rt_text v

/-- A section that round-trips: clean non-whitespace name, and all entries
are round-trippable keys. -/
def rt_sec (sec : Section) : Prop :=
  (∀ c ∈ sec.name, is_whitespace c = false ∧ clean_char c = true) ∧
  ∀ e ∈ sec.entries, rt_key e

/-! ## Basic list lemmas: `dropWhile`, `trim`, `take_line` -/

theorem dropWhile_cons_false {p : Char → Bool} {c : Char} {l : List Char}
    (h : p c = false) : List.dropWhile p (c :: l) = c :: l := by
  simp [List.dropWhile_cons, h]

theorem dropWhile_all {p : Char → Bool} {l : List Char}
    (h : ∀ c ∈ l, p c = true) : List.dropWhile p l = [] :=
  List.dropWhile_eq_nil_iff.mpr h

theorem dropWhile_append_all {p : Char → Bool} {pre : List Char} (l : List Char)
    (h : ∀ c ∈ pre, p c = true) : List.dropWhile p (pre ++ l) = List.dropWhile p l := by
  rw [List.dropWhile_append, dropWhile_all h]
  simp

theorem dropWhile_head_false {p : Char → Bool} {l : List Char} {c : Char} {t : List Char}
    (h : List.dropWhile p l = c :: t) : p c = false := by
  induction l with
  | nil => simp at h
  | cons a l ih =>
    rw [List.dropWhile_cons] at h
    by_cases hp : p a = true
    · exact ih (by simpa [hp] using h)
    · simp [hp] at h
      obtain ⟨h1, _⟩ := h
      subst h1
      simpa using hp

theorem trim_nil : trim [] = [] := rfl

theorem trim_ws_front {pre : List Char} (l : List Char)
    (h : ∀ c ∈ pre, is_whitespace c = true) : trim (pre ++ l) = trim l := by
  unfold trim
  rw [dropWhile_append_all l h]

theorem trim_ws_suffix (l : List Char) {suf : List Char}
    (h : ∀ c ∈ suf, is_whitespace c = true) : trim (l ++ suf) = trim l := by
  unfold trim
  rw [List.dropWhile_append]
  by_cases he : (List.dropWhile is_whitespace l).isEmpty = true
  · have hl : List.dropWhile is_whitespace l = [] := by
      simpa [List.isEmpty_iff] using he
    have hs : List.dropWhile is_whitespace suf = [] := dropWhile_all h
    simp [he, hl, hs]
  · rw [if_neg he, List.reverse_append]
    rw [dropWhile_append_all _ (by intro c hc; exact h c (by simpa using hc))]

theorem trim_newline (l : List Char) : trim (l ++ ['\n']) = trim l :=
  trim_ws_suffix l (by intro c hc; simp at hc; subst hc; decide)

theorem trim_prefix_dropWhile (l : List Char) :
    trim l <+: List.dropWhile is_whitespace l := by
  unfold trim
  rw [show List.dropWhile is_whitespace l =
      ((List.dropWhile is_whitespace l).reverse).reverse by simp]
  exact List.reverse_prefix.mpr (by
    simpa using
      (List.dropWhile_suffix is_whitespace :
        List.dropWhile is_whitespace ((List.dropWhile is_whitespace l).reverse) <:+
          (List.dropWhile is_whitespace l).reverse))

theorem mem_trim {c : Char} {l : List Char} (h : c ∈ trim l) : c ∈ l := by
  have h1 : c ∈ List.dropWhile is_whitespace l :=
    (trim_prefix_dropWhile l).sublist.subset h
  exact (List.dropWhile_suffix is_whitespace).sublist.subset h1

theorem trim_head_not_ws {l : List Char} {c : Char} {t : List Char}
    (h : trim l = c :: t) : is_whitespace c = false := by
  obtain ⟨t₂, ht⟩ := trim_prefix_dropWhile l
  rw [h] at ht
  exact dropWhile_head_false ht.symm

theorem trim_ne_nil {c : Char} (l : List Char) (h : is_whitespace c = false) :
    trim (c :: l) ≠ [] := by
  unfold trim
  intro hcon
  rw [List.reverse_eq_nil_iff] at hcon
  rw [List.dropWhile_eq_nil_iff] at hcon
  have hc : c ∈ (List.dropWhile is_whitespace (c :: l)).reverse := by
    rw [dropWhile_cons_false h]
    simp
  have := hcon c hc
  rw [this] at h
  exact absurd h (by simp)

theorem trim_idem (l : List Char) : trim (trim l) = trim l := by
  have htrim : trim l =
      ((l.dropWhile is_whitespace).reverse.dropWhile is_whitespace).reverse := rfl
  cases hb : (l.dropWhile is_whitespace).reverse.dropWhile is_whitespace with
  | nil =>
    rw [htrim, hb]
    simp [trim_nil]
  | cons b bt =>
    have hbws : is_whitespace b = false := dropWhile_head_false hb
    obtain ⟨c, t, hct⟩ : ∃ c t, trim l = c :: t := by
      rw [htrim, hb]
      exact List.exists_cons_of_ne_nil (by simp)
    have hc : is_whitespace c = false := trim_head_not_ws hct
    have step1 : List.dropWhile is_whitespace (trim l) = trim l := by
      rw [hct]; exact dropWhile_cons_false hc
    have step2 : (trim l).reverse =
        (l.dropWhile is_whitespace).reverse.dropWhile is_whitespace := by
      rw [htrim]; simp
    have step3 : List.dropWhile is_whitespace
        ((l.dropWhile is_whitespace).reverse.dropWhile is_whitespace) =
        (l.dropWhile is_whitespace).reverse.dropWhile is_whitespace := by
      rw [hb]; exact dropWhile_cons_false hbws
    calc trim (trim l)
        = (((trim l).dropWhile is_whitespace).reverse.dropWhile is_whitespace).reverse := rfl
      _ = (((trim l)).reverse.dropWhile is_whitespace).reverse := by rw [step1]
      _ = (((l.dropWhile is_whitespace).reverse.dropWhile
            is_whitespace).dropWhile is_whitespace).reverse := by rw [step2]
      _ = ((l.dropWhile is_whitespace).reverse.dropWhile is_whitespace).reverse := by
            rw [step3]
      _ = trim l := htrim.symm

theorem take_line_newline {l : List Char} (r : List Char) (h : '\n' ∉ l) :
    take_line (l ++ '\n' :: r) = (l ++ ['\n'], r) := by
  induction l with
  | nil => simp [take_line]
  | cons c l ih =>
    have hc : ¬c = '\n' := by intro hc; exact h (by simp [hc])
    have ih2 := ih (by intro hm; exact h (by simp [hm]))
    rw [List.cons_append]
    rw [show take_line (c :: (l ++ '\n' :: r)) =
        if c = '\n' then ([c], l ++ '\n' :: r)
        else (c :: (take_line (l ++ '\n' :: r)).1, (take_line (l ++ '\n' :: r)).2) from rfl]
    rw [if_neg hc, ih2]
    simp

theorem take_line_no_newline {l : List Char} (h : '\n' ∉ l) : take_line l = (l, []) := by
  induction l with
  | nil => rfl
  | cons c l ih =>
    have hc : ¬c = '\n' := by intro hc; exact h (by simp [hc])
    have ih2 := ih (by intro hm; exact h (by simp [hm]))
    rw [show take_line (c :: l) =
        if c = '\n' then ([c], l)
        else (c :: (take_line l).1, (take_line l).2) from rfl]
    rw [if_neg hc, ih2]

theorem take_line_shape (l : List Char) :
    ∃ l₀, '\n' ∉ l₀ ∧
      ((take_line l).1 = l₀ ++ ['\n'] ∨ (take_line l).1 = l₀) := by
  induction l with
  | nil => exact ⟨[], by simp, Or.inr rfl⟩
  | cons c l ih =>
    by_cases hc : c = '\n'
    · subst hc
      exact ⟨[], by simp, Or.inl (by simp [take_line])⟩
    · obtain ⟨l₀, hnl, hcase⟩ := ih
      refine ⟨c :: l₀, ?_, ?_⟩
      · simp only [List.mem_cons, not_or]
        exact ⟨fun hx => hc hx.symm, hnl⟩
      · rcases hcase with h | h
        · exact Or.inl (by simp [take_line, hc, h])
        · exact Or.inr (by simp [take_line, hc, h])

theorem take_line_join (l : List Char) : (take_line l).1 ++ (take_line l).2 = l := by
  induction l with
  | nil => rfl
  | cons c l ih =>
    by_cases hc : c = '\n'
    · subst hc; simp [take_line]
    · simp only [take_line, hc, if_false]
      simpa using ih

theorem take_line_fst_ne_nil {l : List Char} (h : l ≠ []) : (take_line l).1 ≠ [] := by
  cases l with
  | nil => exact absurd rfl h
  | cons c l =>
    by_cases hc : c = '\n' <;> simp [take_line, hc]

theorem take_line_snd_lt {l : List Char} (h : l ≠ []) :
    (take_line l).2.length < l.length := by
  have hj := take_line_join l
  have h1 : (take_line l).1.length + (take_line l).2.length = l.length := by
    rw [← List.length_append, hj]
  have h2 : (take_line l).1.length ≠ 0 := by
    simpa [List.length_eq_zero] using take_line_fst_ne_nil h
  omega

theorem wf_text_trim {c : Char} {line : List Char} (hc : is_whitespace c = false)
    {l₀ : List Char} (h0 : '\n' ∉ l₀)
    (hline : line = l₀ ++ ['\n'] ∨ line = l₀) : wf_text (trim (c :: line)) := by
  have base : wf_text (trim (c :: l₀)) := by
    refine ⟨trim_ne_nil l₀ hc, trim_idem _, ?_⟩
    intro hmem
    rcases List.mem_cons.mp (mem_trim hmem) with h | h
    · rw [← h] at hc; exact absurd hc (by decide)
    · exact h0 h
  rcases hline with h | h
  · subst h
    rw [show c :: (l₀ ++ ['\n']) = (c :: l₀) ++ ['\n'] by simp, trim_newline]
    exact base
  · subst h; exact base

/-! ## Characterization of `get_next_char` -/

theorem gnc_loop_spec : ∀ (fuel : Nat) (s s₂ : IniReader), gnc_loop fuel s = some s₂ →
    s₂.ini = s.ini ∧ s₂.stream <:+ s.stream ∧
    ((s₂.good = s.good ∧ is_whitespace s₂.next_char = false) ∨
      (s₂.good = false ∧ s₂.stream = []))
  | 0, s, s₂, h => by simp [gnc_loop] at h
  | fuel + 1, ⟨st, nc, i, g⟩, s₂, h => by
    rw [gnc_loop] at h
    by_cases hws : is_whitespace nc = true
    · cases st with
      | nil =>
        simp only [hws, if_true] at h
        obtain rfl := Option.some.inj h
        exact ⟨rfl, List.nil_suffix, Or.inr ⟨rfl, rfl⟩⟩
      | cons c rest =>
        simp only [hws, if_true] at h
        obtain ⟨h1, h2, h3⟩ := gnc_loop_spec fuel _ _ h
        exact ⟨h1, h2.trans ⟨[c], rfl⟩, h3⟩
    · simp only [hws, Bool.false_eq_true, if_false] at h
      obtain rfl := Option.some.inj h
      exact ⟨rfl, List.suffix_refl _, Or.inl ⟨rfl, by simpa using hws⟩⟩

theorem gnc_loop_total : ∀ (fuel : Nat) (s : IniReader), s.stream.length < fuel →
    ∃ s₂, gnc_loop fuel s = some s₂
  | 0, s, h => absurd h (by omega)
  | fuel + 1, s, h => by
    rw [gnc_loop]
    by_cases hws : is_whitespace s.next_char = true
    · rw [if_pos hws]
      cases hst : s.stream with
      | nil => exact ⟨_, rfl⟩
      | cons c rest =>
        refine gnc_loop_total fuel _ ?_
        have : s.stream.length = rest.length + 1 := by rw [hst]; simp
        simp only []
        omega
    · rw [if_neg hws]
      exact ⟨s, rfl⟩

theorem get_next_char_eq (s : IniReader) :
    gnc_loop (s.stream.length + 1) { s with next_char := ' ' } = some (get_next_char s) := by
  obtain ⟨s₂, h⟩ := gnc_loop_total (s.stream.length + 1) { s with next_char := ' ' } (by simp)
  rw [get_next_char, h]

theorem gnc_ini (s : IniReader) : (get_next_char s).ini = s.ini :=
  (gnc_loop_spec _ _ _ (get_next_char_eq s)).1

theorem gnc_suffix (s : IniReader) : (get_next_char s).stream <:+ s.stream :=
  (gnc_loop_spec _ _ _ (get_next_char_eq s)).2.1

theorem gnc_cases (s : IniReader) :
    ((get_next_char s).good = s.good ∧ is_whitespace (get_next_char s).next_char = false) ∨
      ((get_next_char s).good = false ∧ (get_next_char s).stream = []) :=
  (gnc_loop_spec _ _ _ (get_next_char_eq s)).2.2

theorem gnc_loop_strict : ∀ (fuel : Nat) (s s₂ : IniReader), gnc_loop fuel s = some s₂ →
    is_whitespace s.next_char = true →
    s₂.stream.length < s.stream.length ∨ (s₂.good = false ∧ s₂.stream = [])
  | 0, s, s₂, h, _ => by simp [gnc_loop] at h
  | fuel + 1, ⟨st, nc, i, g⟩, s₂, h, hws => by
    rw [gnc_loop] at h
    have hws2 : is_whitespace nc = true := hws
    cases st with
    | nil =>
      simp only [hws2, if_true] at h
      obtain rfl := Option.some.inj h
      exact Or.inr ⟨rfl, rfl⟩
    | cons c rest =>
      simp only [hws2, if_true] at h
      have hle : s₂.stream.length ≤ rest.length :=
        (gnc_loop_spec fuel _ _ h).2.1.length_le
      exact Or.inl (by simp only [List.length_cons]; omega)

theorem gnc_strict (s : IniReader) :
    (get_next_char s).stream.length < s.stream.length ∨
      ((get_next_char s).good = false ∧ (get_next_char s).stream = []) :=
  gnc_loop_strict (s.stream.length + 1) { s with next_char := ' ' } (get_next_char s)
    (get_next_char_eq s) (show is_whitespace ' ' = true by decide)

theorem mu_gnc_le (s : IniReader) : mu (get_next_char s) ≤ mu s := by
  have hlen : (get_next_char s).stream.length ≤ s.stream.length :=
    (gnc_suffix s).length_le
  unfold mu
  rcases gnc_cases s with ⟨hg, _⟩ | ⟨hg, _⟩
  · rw [hg]; omega
  · rw [hg]
    cases hsg : s.good <;> simp <;> omega

theorem mu_gnc_lt (s : IniReader) (h : s.good = true) : mu (get_next_char s) < mu s := by
  have hlen : (get_next_char s).stream.length ≤ s.stream.length :=
    (gnc_suffix s).length_le
  unfold mu
  rw [h]
  simp only [if_true]
  rcases gnc_strict s with hlt | ⟨hg, _⟩
  · have hone : (if (get_next_char s).good = true then 1 else 0) ≤ 1 := by
      split <;> omega
    omega
  · rw [hg]
    simp only [Bool.false_eq_true, if_false]
    omega

theorem reader_inv_gnc (s : IniReader) (h : s.good = false → s.stream = []) :
    reader_inv (get_next_char s) := by
  rcases gnc_cases s with ⟨hg, hws⟩ | ⟨hg, hst⟩
  · constructor
    · intro _; exact hws
    · intro hbad
      rw [hbad] at hg
      have := h hg.symm
      have hsuf := gnc_suffix s
      rw [this] at hsuf
      exact List.suffix_nil.mp hsuf
  · exact ⟨fun hgood => absurd (hg ▸ hgood) (by simp), fun _ => hst⟩

theorem gnc_next_irrel (stream : List Char) (i : IniFile) (g : Bool) (a b : Char) :
    get_next_char ⟨stream, a, i, g⟩ = get_next_char ⟨stream, b, i, g⟩ := by
  have h1 := get_next_char_eq ⟨stream, a, i, g⟩
  have h2 := get_next_char_eq ⟨stream, b, i, g⟩
  exact Option.some.inj (h1.symm.trans h2)

theorem gnc_loop_run : ∀ (pre : List Char) (fuel : Nat) {c : Char} (rest : List Char)
    (x : Char) (i : IniFile) (g : Bool),
    (∀ w ∈ pre, is_whitespace w = true) → is_whitespace c = false →
    is_whitespace x = true → pre.length + 1 < fuel →
    gnc_loop fuel ⟨pre ++ c :: rest, x, i, g⟩ = some ⟨rest, c, i, g⟩
  | pre, 0, c, rest, x, i, g, hpre, hc, hx, hfuel => absurd hfuel (by omega)
  | [], fuel + 1, c, rest, x, i, g, hpre, hc, hx, hfuel => by
    rw [gnc_loop, if_pos hx]
    simp only [List.nil_append]
    cases fuel with
    | zero => omega
    | succ fuel2 =>
      rw [gnc_loop, if_neg (by simp [hc])]
  | w :: pre, fuel + 1, c, rest, x, i, g, hpre, hc, hx, hfuel => by
    rw [gnc_loop, if_pos hx]
    simp only [List.cons_append]
    exact gnc_loop_run pre fuel rest w i g
      (fun a ha => hpre a (by simp [ha])) hc (hpre w (by simp)) (by simp at hfuel; omega)

theorem gnc_run (pre : List Char) {c : Char} (rest : List Char) (x : Char)
    (i : IniFile) (g : Bool) (hpre : ∀ w ∈ pre, is_whitespace w = true)
    (hc : is_whitespace c = false) :
    get_next_char ⟨pre ++ c :: rest, x, i, g⟩ = ⟨rest, c, i, g⟩ := by
  have h := gnc_loop_run pre ((pre ++ c :: rest).length + 1) rest ' ' i g hpre hc
    (by decide) (by simp only [List.length_append, List.length_cons]; omega)
  have heq := get_next_char_eq ⟨pre ++ c :: rest, x, i, g⟩
  exact Option.some.inj (heq.symm.trans h)

theorem gnc_loop_all_ws : ∀ (l : List Char) (fuel : Nat) (x : Char) (i : IniFile) (g : Bool),
    (∀ w ∈ l, is_whitespace w = true) → is_whitespace x = true → l.length < fuel →
    ∃ nc, gnc_loop fuel ⟨l, x, i, g⟩ = some ⟨[], nc, i, false⟩
  | l, 0, x, i, g, hl, hx, hfuel => absurd hfuel (by omega)
  | [], fuel + 1, x, i, g, hl, hx, hfuel => by
    rw [gnc_loop, if_pos hx]
    exact ⟨x, rfl⟩
  | w :: l, fuel + 1, x, i, g, hl, hx, hfuel => by
    rw [gnc_loop, if_pos hx]
    exact gnc_loop_all_ws l fuel w i g (fun a ha => hl a (by simp [ha]))
      (hl w (by simp)) (by simp at hfuel; omega)

theorem gnc_all_ws (l : List Char) (x : Char) (i : IniFile) (g : Bool)
    (h : ∀ w ∈ l, is_whitespace w = true) :
    ∃ nc, get_next_char ⟨l, x, i, g⟩ = ⟨[], nc, i, false⟩ := by
  obtain ⟨nc, hnc⟩ := gnc_loop_all_ws l (l.length + 1) ' ' i g h (by decide) (by simp)
  have heq := get_next_char_eq ⟨l, x, i, g⟩
  exact ⟨nc, Option.some.inj (heq.symm.trans hnc)⟩

theorem mid_state_run (pre : List Char) {c : Char} (rest : List Char) (i : IniFile)
    (hpre : ∀ w ∈ pre, is_whitespace w = true) (hc : is_whitespace c = false) :
    mid_state (pre ++ c :: rest) i = ⟨rest, c, i, true⟩ := by
  rw [mid_state]
  exact gnc_run pre rest ' ' i true hpre hc

theorem skip_to_mid (X : List Char) (i : IniFile) : skip_to X i (mid_state X i) := by
  cases hX : X.dropWhile is_whitespace with
  | nil =>
    right
    have hall : ∀ w ∈ X, is_whitespace w = true := List.dropWhile_eq_nil_iff.mp hX
    obtain ⟨nc, hnc⟩ := gnc_all_ws X ' ' i true hall
    rw [mid_state]
    rw [show ({ stream := X, next_char := ' ', ini := i, good := true } : IniReader)
        = ⟨X, ' ', i, true⟩ from rfl, hnc]
    exact ⟨hX, rfl, rfl, rfl⟩
  | cons c rest =>
    left
    have hsplit : X.takeWhile is_whitespace ++ c :: rest = X := by
      rw [← hX]; exact List.takeWhile_append_dropWhile is_whitespace X
    have hc : is_whitespace c = false := dropWhile_head_false hX
    refine ⟨c, rest, hX, ?_⟩
    rw [show X = X.takeWhile is_whitespace ++ c :: rest from hsplit.symm]
    exact mid_state_run _ rest i (fun w hw => List.mem_takeWhile_imp hw) hc

theorem skip_to_gnc (X : List Char) (i : IniFile) (a : Char) :
    skip_to X i (get_next_char ⟨X, a, i, true⟩) := by
  rw [gnc_next_irrel X i true a ' ']
  exact skip_to_mid X i

theorem skip_to_ws_cons {w : Char} {X : List Char} {i : IniFile} {s : IniReader}
    (hw : is_whitespace w = true) (h : skip_to (w :: X) i s) : skip_to X i s := by
  have hdw : (w :: X).dropWhile is_whitespace = X.dropWhile is_whitespace := by
    simp [List.dropWhile_cons, hw]
  rcases h with ⟨c, rest, heq, hs⟩ | ⟨hall, h1, h2, h3⟩
  · exact Or.inl ⟨c, rest, by rw [← hdw]; exact heq, hs⟩
  · exact Or.inr ⟨by rw [← hdw]; exact hall, h1, h2, h3⟩

theorem skip_to_state {X : List Char} {i : IniFile} {s : IniReader} {c : Char}
    {rest : List Char} (h : skip_to X i s)
    (hX : X.dropWhile is_whitespace = c :: rest) :
    s = { stream := rest, next_char := c, ini := i, good := true } := by
  rcases h with ⟨c₂, rest₂, heq, hs⟩ | ⟨hall, _, _, _⟩
  · rw [hX] at heq
    injection heq with h1 h2
    rw [hs, h1, h2]
  · rw [hX] at hall
    simp at hall

theorem skip_to_end {X : List Char} {i : IniFile} {s : IniReader}
    (h : skip_to X i s) (hX : X.dropWhile is_whitespace = []) :
    s.stream = [] ∧ s.good = false ∧ s.ini = i := by
  rcases h with ⟨c₂, rest₂, heq, hs⟩ | ⟨_, h1, h2, h3⟩
  · rw [hX] at heq
    simp at heq
  · exact ⟨h1, h2, h3⟩

/-! ## `match_token`, `read_rest` and `scan_until`: invariants -/

theorem match_token_ok {s : IniReader} {mc : Char} {fn : String} {s₂ : IniReader}
    (h : match_token s mc fn = (MatchResult.Ok, s₂)) :
    s.next_char = mc ∧ s₂ = get_next_char s := by
  rw [match_token] at h
  split at h
  · exact absurd h (by simp)
  · rename_i hne
    simp only [Prod.mk.injEq] at h
    exact ⟨by simpa using hne, h.2.symm⟩

theorem match_token_err {s : IniReader} {mc : Char} {fn : String} {e : String} {s₂ : IniReader}
    (h : match_token s mc fn = (MatchResult.Err e, s₂)) :
    s₂ = s ∧ e = err_expected fn mc s.next_char ∧ s.next_char ≠ mc := by
  rw [match_token] at h
  split at h
  · rename_i hne
    simp only [Prod.mk.injEq, MatchResult.Err.injEq] at h
    exact ⟨h.2.symm, h.1.symm, hne⟩
  · exact absurd h (by simp)

theorem match_token_run (s : IniReader) (mc : Char) (fn : String)
    (h : s.next_char = mc) :
    match_token s mc fn = (MatchResult.Ok, get_next_char s) := by
  rw [match_token, if_neg (by simpa using h)]

theorem match_token_fail (s : IniReader) (mc : Char) (fn : String)
    (h : s.next_char ≠ mc) :
    match_token s mc fn = (MatchResult.Err (err_expected fn mc s.next_char), s) := by
  rw [match_token, if_pos h]

theorem match_token_ini (s : IniReader) (mc : Char) (fn : String) :
    (match_token s mc fn).2.ini = s.ini := by
  rw [match_token]
  split
  · rfl
  · exact gnc_ini s

theorem mu_match_token_le (s : IniReader) (mc : Char) (fn : String) :
    mu (match_token s mc fn).2 ≤ mu s := by
  rw [match_token]
  split
  · exact le_refl _
  · exact mu_gnc_le s

theorem reader_inv_match_token {s : IniReader} (mc : Char) (fn : String)
    (h : reader_inv s) : reader_inv (match_token s mc fn).2 := by
  rw [match_token]
  split
  · exact h
  · exact reader_inv_gnc s h.2

theorem read_rest_skip_ini : ∀ (fuel : Nat) (s s₁ : IniReader),
    read_rest_skip fuel s = some s₁ → s₁.ini = s.ini
  | 0, s, s₁, h => by simp [read_rest_skip] at h
  | fuel + 1, s, s₁, h => by
    rw [read_rest_skip] at h
    split at h
    · rw [read_rest_skip_ini fuel _ _ h, gnc_ini]
    · obtain rfl := Option.some.inj h; rfl

theorem read_rest_skip_mu : ∀ (fuel : Nat) (s s₁ : IniReader),
    read_rest_skip fuel s = some s₁ → mu s₁ ≤ mu s
  | 0, s, s₁, h => by simp [read_rest_skip] at h
  | fuel + 1, s, s₁, h => by
    rw [read_rest_skip] at h
    split at h
    · exact le_trans (read_rest_skip_mu fuel _ _ h) (mu_gnc_le s)
    · obtain rfl := Option.some.inj h; exact le_refl _

theorem read_rest_skip_inv_eq {s : IniReader} (h : reader_inv s) (fuel : Nat)
    (hf : 1 ≤ fuel) : read_rest_skip fuel s = some s := by
  cases fuel with
  | zero => omega
  | succ fuel =>
    rw [read_rest_skip]
    rw [if_neg]
    rintro ⟨hg, hws⟩
    rw [h.1 hg] at hws
    exact absurd hws (by simp)

theorem take_line_snd_le (l : List Char) : (take_line l).2.length ≤ l.length := by
  have hj := take_line_join l
  have : (take_line l).1.length + (take_line l).2.length = l.length := by
    rw [← List.length_append, hj]
  omega

theorem read_rest_eq_of_inv {s : IniReader} (hinv : reader_inv s) :
    read_rest s =
      (match read_line s.stream with
        | none => (ReadResult.Err "IO error: end of file", s)
        | some (line, rest) =>
          (ReadResult.Ok (s.next_char :: line), get_next_char { s with stream := rest })) := by
  rw [read_rest, read_rest_skip_inv_eq hinv _ (by omega)]

theorem read_rest_ok_spec {s : IniReader} {out : List Char} {s₂ : IniReader}
    (hinv : reader_inv s) (h : read_rest s = (ReadResult.Ok out, s₂)) :
    s.good = true ∧ s.stream ≠ [] ∧
      out = s.next_char :: (take_line s.stream).1 ∧
      s₂ = get_next_char { s with stream := (take_line s.stream).2 } := by
  rw [read_rest_eq_of_inv hinv] at h
  cases hst : s.stream with
  | nil =>
    rw [hst] at h
    rw [show read_line [] = none from rfl] at h
    simp at h
  | cons c rest0 =>
    rw [hst] at h
    rw [show read_line (c :: rest0) = some (take_line (c :: rest0)) from rfl] at h
    rcases htl : take_line (c :: rest0) with ⟨line, rest⟩
    rw [htl] at h
    simp only [Prod.mk.injEq, ReadResult.Ok.injEq] at h
    have hgood : s.good = true := by
      by_contra hg
      have hnil := hinv.2 (by revert hg; cases s.good <;> simp)
      rw [hnil] at hst
      simp at hst
    refine ⟨hgood, by simp, ?_, ?_⟩
    · exact h.1.symm
    · exact h.2.symm

theorem read_rest_wf {s : IniReader} {out : List Char} {s₂ : IniReader}
    (hinv : reader_inv s) (h : read_rest s = (ReadResult.Ok out, s₂)) :
    wf_text (trim out) ∧ reader_inv s₂ ∧ s₂.ini = s.ini := by
  obtain ⟨hgood, hne, hout, hs₂⟩ := read_rest_ok_spec hinv h
  have hc : is_whitespace s.next_char = false := hinv.1 hgood
  obtain ⟨l₀, hl₀, hcase⟩ := take_line_shape s.stream
  constructor
  · rw [hout]
    exact wf_text_trim hc hl₀ (by rcases hcase with h | h <;> [exact Or.inl h; exact Or.inr h])
  constructor
  · rw [hs₂]
    exact reader_inv_gnc _ (by intro hg; simp [hgood] at hg)
  · rw [hs₂, gnc_ini]

theorem read_line_snd {stream line rest : List Char}
    (h : read_line stream = some (line, rest)) : rest = (take_line stream).2 := by
  cases stream with
  | nil => simp [read_line] at h
  | cons c st =>
    rw [show read_line (c :: st) = some (take_line (c :: st)) from rfl] at h
    have h2 := Option.some.inj h
    rw [h2]

theorem read_rest_ini (s : IniReader) : (read_rest s).2.ini = s.ini := by
  rw [read_rest]
  cases hskip : read_rest_skip (s.stream.length + 2) s with
  | none => rfl
  | some s₁ =>
    have h1 : s₁.ini = s.ini := read_rest_skip_ini _ _ _ hskip
    show (match read_line s₁.stream with
      | none => (ReadResult.Err "IO error: end of file", s₁)
      | some (line, rest) =>
        (ReadResult.Ok (s₁.next_char :: line),
          get_next_char { s₁ with stream := rest })).2.ini = s.ini
    cases hrl : read_line s₁.stream with
    | none => exact h1
    | some p =>
      obtain ⟨line, rest⟩ := p
      show (get_next_char { s₁ with stream := rest }).ini = s.ini
      rw [gnc_ini]
      exact h1

theorem mu_read_rest_le (s : IniReader) : mu (read_rest s).2 ≤ mu s := by
  rw [read_rest]
  cases hskip : read_rest_skip (s.stream.length + 2) s with
  | none => exact le_refl _
  | some s₁ =>
    have h1 : mu s₁ ≤ mu s := read_rest_skip_mu _ _ _ hskip
    show mu (match read_line s₁.stream with
      | none => (ReadResult.Err "IO error: end of file", s₁)
      | some (line, rest) =>
        (ReadResult.Ok (s₁.next_char :: line),
          get_next_char { s₁ with stream := rest })).2 ≤ mu s
    cases hrl : read_line s₁.stream with
    | none => exact h1
    | some p =>
      obtain ⟨line, rest⟩ := p
      show mu (get_next_char { s₁ with stream := rest }) ≤ mu s
      have hrest : rest = (take_line s₁.stream).2 := read_line_snd hrl
      have h2 : mu { s₁ with stream := rest } ≤ mu s₁ := by
        unfold mu
        simp only
        have := take_line_snd_le s₁.stream
        rw [hrest]
        omega
      exact le_trans (mu_gnc_le _) (le_trans h2 h1)

theorem scan_until_mu : ∀ (fuel : Nat) (stop : Char) (s : IniReader) (acc : List Char)
    (s₁ : IniReader) (out : List Char),
    scan_until fuel stop s acc = some (s₁, out) → mu s₁ ≤ mu s
  | 0, _, s, acc, s₁, out, h => by simp [scan_until] at h
  | fuel + 1, stop, s, acc, s₁, out, h => by
    rw [scan_until] at h
    split at h
    · exact le_trans (scan_until_mu fuel stop _ _ _ _ h) (mu_gnc_le s)
    · have h2 := Option.some.inj h
      injection h2 with h2a h2b
      rw [← h2a]

theorem scan_until_spec : ∀ (fuel : Nat) (stop : Char) (s : IniReader) (acc : List Char)
    (s₁ : IniReader) (out : List Char), reader_inv s →
    scan_until fuel stop s acc = some (s₁, out) →
    reader_inv s₁ ∧ s₁.ini = s.ini ∧
      ∃ Δ, out = acc ++ Δ ∧ (∀ c ∈ Δ, is_whitespace c = false ∧ c ≠ stop) ∧
        (Δ = [] ∨ Δ.head? = some s.next_char)
  | 0, _, s, acc, s₁, out, _, h => by simp [scan_until] at h
  | fuel + 1, stop, s, acc, s₁, out, hinv, h => by
    rw [scan_until] at h
    split at h
    · rename_i hcond
      obtain ⟨hg, hne⟩ := hcond
      obtain ⟨hinv₁, hini₁, Δ, hΔ, hΔc, hΔh⟩ :=
        scan_until_spec fuel stop _ _ _ _ (reader_inv_gnc s hinv.2) h
      refine ⟨hinv₁, by rw [hini₁, gnc_ini], s.next_char :: Δ, ?_, ?_, ?_⟩
      · rw [hΔ]; simp
      · intro c hc
        rcases List.mem_cons.mp hc with h | h
        · subst h; exact ⟨hinv.1 hg, hne⟩
        · exact hΔc c h
      · exact Or.inr rfl
    · obtain h := Option.some.inj h
      simp only [Prod.mk.injEq] at h
      refine ⟨h.1 ▸ hinv, by rw [← h.1], [], by rw [← h.2]; simp, by simp, Or.inl rfl⟩

theorem scan_until_lt {fuel : Nat} {stop : Char} {s : IniReader} {acc : List Char}
    {s₁ : IniReader} {out : List Char} (hg : s.good = true) (hne : s.next_char ≠ stop)
    (h : scan_until fuel stop s acc = some (s₁, out)) : mu s₁ < mu s := by
  cases fuel with
  | zero => simp [scan_until] at h
  | succ fuel =>
    rw [scan_until, if_pos ⟨hg, hne⟩] at h
    exact lt_of_le_of_lt (scan_until_mu fuel stop _ _ _ _ h) (mu_gnc_lt s hg)

theorem scan_until_total : ∀ (fuel : Nat) (stop : Char) (s : IniReader) (acc : List Char),
    mu s < fuel → ∃ r, scan_until fuel stop s acc = some r
  | 0, _, s, _, h => absurd h (by omega)
  | fuel + 1, stop, s, acc, h => by
    rw [scan_until]
    by_cases hcond : s.good = true ∧ s.next_char ≠ stop
    · rw [if_pos hcond]
      exact scan_until_total fuel stop _ _
        (by have := mu_gnc_lt s hcond.1; omega)
    · rw [if_neg hcond]
      exact ⟨(s, acc), rfl⟩

theorem mu_le_fuel_bound (s : IniReader) : mu s < s.stream.length + 2 := by
  unfold mu
  split <;> omega

/-! ## Directed equations for the productions -/

theorem parse_comment_err {s : IniReader} {root : Bool} {e : String} {s₁ : IniReader}
    (h : match_token s ';' "parse_comment" = (MatchResult.Err e, s₁)) :
    parse_comment s root = (ParseResult.Err e, s₁) := by
  simp only [parse_comment, h]

theorem parse_comment_rr_err {s : IniReader} {root : Bool} {s₁ : IniReader} {e : String}
    {s₂ : IniReader} (hmt : match_token s ';' "parse_comment" = (MatchResult.Ok, s₁))
    (hrr : read_rest s₁ = (ReadResult.Err e, s₂)) :
    parse_comment s root = (ParseResult.Err e, s₂) := by
  simp only [parse_comment, hmt, hrr]

theorem parse_comment_ok {s : IniReader} {root : Bool} {s₁ : IniReader} {out : List Char}
    {s₂ : IniReader} (hmt : match_token s ';' "parse_comment" = (MatchResult.Ok, s₁))
    (hrr : read_rest s₁ = (ReadResult.Ok out, s₂)) :
    parse_comment s root =
      (if root then (ParseResult.StepOk (IniItem.Entry (Entry.Comment (trim out))), s₂)
       else (ParseResult.StepOk (IniItem.SectionEntry (SectionEntry.Comment (trim out))), s₂)) := by
  simp only [parse_comment, hmt, hrr]

theorem parse_section_name_err1 {s : IniReader} {e : String} {s₁ : IniReader}
    (h : match_token s '[' "parse_section" = (MatchResult.Err e, s₁)) :
    parse_section_name s = (ParseResult.Err e, s₁) := by
  simp only [parse_section_name, h]

theorem parse_section_name_err2 {s s₁ s₂ s₃ : IniReader} {name : List Char} {e : String}
    (hmt : match_token s '[' "parse_section" = (MatchResult.Ok, s₁))
    (hscan : scan_until (s₁.stream.length + 2) ']' s₁ [] = some (s₂, name))
    (h2 : match_token s₂ ']' "parse_section" = (MatchResult.Err e, s₃)) :
    parse_section_name s = (ParseResult.Err e, s₃) := by
  simp only [parse_section_name, hmt, hscan, h2]

theorem parse_section_name_ok {s s₁ s₂ s₃ : IniReader} {name : List Char}
    (hmt : match_token s '[' "parse_section" = (MatchResult.Ok, s₁))
    (hscan : scan_until (s₁.stream.length + 2) ']' s₁ [] = some (s₂, name))
    (h2 : match_token s₂ ']' "parse_section" = (MatchResult.Ok, s₃)) :
    parse_section_name s = (ParseResult.StepOk (IniItem.SectionName name), s₃) := by
  simp only [parse_section_name, hmt, hscan, h2]

theorem parse_key_err1 {s s₁ s₂ : IniReader} {n : List Char} {e : String}
    (hscan : scan_until (s.stream.length + 2) '=' s [] = some (s₁, n))
    (hmt : match_token s₁ '=' "parse_key" = (MatchResult.Err e, s₂)) :
    parse_key s = (ParseResult.Err e, s₂) := by
  simp only [parse_key, hscan, hmt]

theorem parse_key_rr_err {s s₁ s₂ s₃ : IniReader} {n : List Char} {e : String}
    (hscan : scan_until (s.stream.length + 2) '=' s [] = some (s₁, n))
    (hmt : match_token s₁ '=' "parse_key" = (MatchResult.Ok, s₂))
    (hrr : read_rest s₂ = (ReadResult.Err e, s₃)) :
    parse_key s = (ParseResult.Err e, s₃) := by
  simp only [parse_key, hscan, hmt, hrr]

theorem parse_key_ok {s s₁ s₂ s₃ : IniReader} {n out : List Char}
    (hscan : scan_until (s.stream.length + 2) '=' s [] = some (s₁, n))
    (hmt : match_token s₁ '=' "parse_key" = (MatchResult.Ok, s₂))
    (hrr : read_rest s₂ = (ReadResult.Ok out, s₃)) :
    parse_key s = (ParseResult.StepOk (IniItem.Key n (trim out)), s₃) := by
  simp only [parse_key, hscan, hmt, hrr]

/-! ## Case analyses of the productions under the reachability invariant -/

theorem parse_comment_cases (s : IniReader) (root : Bool) (hinv : reader_inv s) :
    (∃ e s₁, parse_comment s root = (ParseResult.Err e, s₁) ∧ s₁.ini = s.ini) ∨
    (∃ t s₁, parse_comment s root =
        (ParseResult.StepOk
          (if root then IniItem.Entry (Entry.Comment t)
           else IniItem.SectionEntry (SectionEntry.Comment t)), s₁) ∧
      wf_text t ∧ reader_inv s₁ ∧ s₁.ini = s.ini) := by
  rcases hmt : match_token s ';' "parse_comment" with ⟨r, s₁⟩
  have hini₁ : s₁.ini = s.ini := by
    have := match_token_ini s ';' "parse_comment"
    rw [hmt] at this
    exact this
  cases r with
  | Err e => exact Or.inl ⟨e, s₁, parse_comment_err hmt, hini₁⟩
  | Ok =>
    have hinv₁ : reader_inv s₁ := by
      have := reader_inv_match_token ';' "parse_comment" hinv
      rw [hmt] at this
      exact this
    rcases hrr : read_rest s₁ with ⟨rr, s₂⟩
    cases rr with
    | Err e =>
      refine Or.inl ⟨e, s₂, parse_comment_rr_err hmt hrr, ?_⟩
      have := read_rest_ini s₁
      rw [hrr] at this
      rw [this, hini₁]
    | Ok out =>
      obtain ⟨hwf, hinv₂, hini₂⟩ := read_rest_wf hinv₁ hrr
      refine Or.inr ⟨trim out, s₂, ?_, hwf, hinv₂, by rw [hini₂, hini₁]⟩
      rw [parse_comment_ok hmt hrr]
      cases root <;> simp

theorem parse_comment_ini (s : IniReader) (root : Bool) :
    (parse_comment s root).2.ini = s.ini := by
  rcases hmt : match_token s ';' "parse_comment" with ⟨r, s₁⟩
  have hini₁ : s₁.ini = s.ini := by
    have := match_token_ini s ';' "parse_comment"
    rw [hmt] at this
    exact this
  cases r with
  | Err e => rw [@parse_comment_err _ root _ _ hmt]; exact hini₁
  | Ok =>
    rcases hrr : read_rest s₁ with ⟨rr, s₂⟩
    have hini₂ : s₂.ini = s₁.ini := by
      have := read_rest_ini s₁
      rw [hrr] at this
      exact this
    cases rr with
    | Err e => rw [@parse_comment_rr_err _ root _ _ _ hmt hrr]; rw [hini₂, hini₁]
    | Ok out =>
      rw [@parse_comment_ok _ root _ _ _ hmt hrr]
      cases root <;> simp <;> rw [hini₂, hini₁]

theorem mu_parse_comment_le (s : IniReader) (root : Bool) :
    mu (parse_comment s root).2 ≤ mu s := by
  rcases hmt : match_token s ';' "parse_comment" with ⟨r, s₁⟩
  have hmu₁ : mu s₁ ≤ mu s := by
    have := mu_match_token_le s ';' "parse_comment"
    rw [hmt] at this
    exact this
  cases r with
  | Err e => rw [@parse_comment_err _ root _ _ hmt]; exact hmu₁
  | Ok =>
    rcases hrr : read_rest s₁ with ⟨rr, s₂⟩
    have hmu₂ : mu s₂ ≤ mu s₁ := by
      have := mu_read_rest_le s₁
      rw [hrr] at this
      exact this
    cases rr with
    | Err e =>
      rw [@parse_comment_rr_err _ root _ _ _ hmt hrr]
      exact le_trans hmu₂ hmu₁
    | Ok out =>
      rw [@parse_comment_ok _ root _ _ _ hmt hrr]
      cases root <;> simp <;> exact le_trans hmu₂ hmu₁

theorem mu_parse_comment_lt (s : IniReader) (root : Bool) (h : s.next_char = ';')
    (hg : s.good = true) : mu (parse_comment s root).2 < mu s := by
  have hmt := match_token_run s ';' "parse_comment" h
  have hlt : mu (get_next_char s) < mu s := mu_gnc_lt s hg
  rcases hrr : read_rest (get_next_char s) with ⟨rr, s₂⟩
  have hmu₂ : mu s₂ ≤ mu (get_next_char s) := by
    have := mu_read_rest_le (get_next_char s)
    rw [hrr] at this
    exact this
  cases rr with
  | Err e =>
    rw [@parse_comment_rr_err _ root _ _ _ hmt hrr]
    show mu s₂ < mu s
    omega
  | Ok out =>
    rw [@parse_comment_ok _ root _ _ _ hmt hrr]
    cases root <;> simp <;> omega

theorem scan_until_ini : ∀ (fuel : Nat) (stop : Char) (s : IniReader) (acc : List Char)
    (s₁ : IniReader) (out : List Char),
    scan_until fuel stop s acc = some (s₁, out) → s₁.ini = s.ini
  | 0, _, s, acc, s₁, out, h => by simp [scan_until] at h
  | fuel + 1, stop, s, acc, s₁, out, h => by
    rw [scan_until] at h
    split at h
    · rw [scan_until_ini fuel stop _ _ _ _ h, gnc_ini]
    · have h2 := Option.some.inj h
      injection h2 with h2a h2b
      rw [← h2a]

theorem scan_until_fuel_eq (s : IniReader) (stop : Char) (acc : List Char) :
    ∃ s₁ out, scan_until (s.stream.length + 2) stop s acc = some (s₁, out) := by
  obtain ⟨r, hr⟩ := scan_until_total (s.stream.length + 2) stop s acc (mu_le_fuel_bound s)
  exact ⟨r.1, r.2, by rw [hr]⟩

theorem parse_section_name_cases (s : IniReader) (hinv : reader_inv s) :
    (∃ e s₁, parse_section_name s = (ParseResult.Err e, s₁)) ∨
    (∃ n s₁, parse_section_name s = (ParseResult.StepOk (IniItem.SectionName n), s₁) ∧
      wf_section_name n ∧ reader_inv s₁ ∧ s₁.ini = s.ini) := by
  rcases hmt : match_token s '[' "parse_section" with ⟨r, s₁⟩
  cases r with
  | Err e => exact Or.inl ⟨e, s₁, parse_section_name_err1 hmt⟩
  | Ok =>
    have hinv₁ : reader_inv s₁ := by
      have := reader_inv_match_token '[' "parse_section" hinv
      rw [hmt] at this
      exact this
    have hini₁ : s₁.ini = s.ini := by
      have := match_token_ini s '[' "parse_section"
      rw [hmt] at this
      exact this
    obtain ⟨s₂, name, hscan⟩ := scan_until_fuel_eq s₁ ']' []
    obtain ⟨hinv₂, hini₂, Δ, hΔ, hΔc, _⟩ := scan_until_spec _ _ _ _ _ _ hinv₁ hscan
    rcases h2 : match_token s₂ ']' "parse_section" with ⟨r2, s₃⟩
    cases r2 with
    | Err e => exact Or.inl ⟨e, s₃, parse_section_name_err2 hmt hscan h2⟩
    | Ok =>
      have hinv₃ : reader_inv s₃ := by
        have := reader_inv_match_token ']' "parse_section" hinv₂
        rw [h2] at this
        exact this
      have hini₃ : s₃.ini = s₂.ini := by
        have := match_token_ini s₂ ']' "parse_section"
        rw [h2] at this
        exact this
      refine Or.inr ⟨name, s₃, parse_section_name_ok hmt hscan h2, ?_, hinv₃, ?_⟩
      · intro c hc
        rw [hΔ] at hc
        exact hΔc c (by simpa using hc)
      · rw [hini₃, hini₂, hini₁]

theorem parse_section_name_ini (s : IniReader) : (parse_section_name s).2.ini = s.ini := by
  rcases hmt : match_token s '[' "parse_section" with ⟨r, s₁⟩
  have hini₁ : s₁.ini = s.ini := by
    have := match_token_ini s '[' "parse_section"
    rw [hmt] at this
    exact this
  cases r with
  | Err e => rw [parse_section_name_err1 hmt]; exact hini₁
  | Ok =>
    obtain ⟨s₂, name, hscan⟩ := scan_until_fuel_eq s₁ ']' []
    have hini₂ : s₂.ini = s₁.ini := scan_until_ini _ _ _ _ _ _ hscan
    rcases h2 : match_token s₂ ']' "parse_section" with ⟨r2, s₃⟩
    have hini₃ : s₃.ini = s₂.ini := by
      have := match_token_ini s₂ ']' "parse_section"
      rw [h2] at this
      exact this
    cases r2 with
    | Err e =>
      rw [parse_section_name_err2 hmt hscan h2]
      show s₃.ini = s.ini
      rw [hini₃, hini₂, hini₁]
    | Ok =>
      rw [parse_section_name_ok hmt hscan h2]
      show s₃.ini = s.ini
      rw [hini₃, hini₂, hini₁]

theorem mu_parse_section_name_le (s : IniReader) : mu (parse_section_name s).2 ≤ mu s := by
  rcases hmt : match_token s '[' "parse_section" with ⟨r, s₁⟩
  have hmu₁ : mu s₁ ≤ mu s := by
    have := mu_match_token_le s '[' "parse_section"
    rw [hmt] at this
    exact this
  cases r with
  | Err e => rw [parse_section_name_err1 hmt]; exact hmu₁
  | Ok =>
    obtain ⟨s₂, name, hscan⟩ := scan_until_fuel_eq s₁ ']' []
    have hmu₂ : mu s₂ ≤ mu s₁ := scan_until_mu _ _ _ _ _ _ hscan
    rcases h2 : match_token s₂ ']' "parse_section" with ⟨r2, s₃⟩
    have hmu₃ : mu s₃ ≤ mu s₂ := by
      have := mu_match_token_le s₂ ']' "parse_section"
      rw [h2] at this
      exact this
    cases r2 with
    | Err e =>
      rw [parse_section_name_err2 hmt hscan h2]
      show mu s₃ ≤ mu s
      omega
    | Ok =>
      rw [parse_section_name_ok hmt hscan h2]
      show mu s₃ ≤ mu s
      omega

theorem mu_parse_section_name_lt {s : IniReader} {item : IniItem} {s₃ : IniReader}
    (hg : s.good = true)
    (h : parse_section_name s = (ParseResult.StepOk item, s₃)) : mu s₃ < mu s := by
  rcases hmt : match_token s '[' "parse_section" with ⟨r, s₁⟩
  cases r with
  | Err e =>
    rw [parse_section_name_err1 hmt] at h
    simp at h
  | Ok =>
    obtain ⟨hnc, hs₁⟩ := match_token_ok hmt
    have hmu₁ : mu s₁ < mu s := hs₁ ▸ mu_gnc_lt s hg
    obtain ⟨s₂, name, hscan⟩ := scan_until_fuel_eq s₁ ']' []
    have hmu₂ : mu s₂ ≤ mu s₁ := scan_until_mu _ _ _ _ _ _ hscan
    rcases h2 : match_token s₂ ']' "parse_section" with ⟨r2, s₃x⟩
    have hmu₃ : mu s₃x ≤ mu s₂ := by
      have := mu_match_token_le s₂ ']' "parse_section"
      rw [h2] at this
      exact this
    cases r2 with
    | Err e =>
      rw [parse_section_name_err2 hmt hscan h2] at h
      simp at h
    | Ok =>
      rw [parse_section_name_ok hmt hscan h2] at h
      have : s₃x = s₃ := congrArg Prod.snd h
      rw [← this]
      omega

theorem parse_key_cases (s : IniReader) (hinv : reader_inv s) :
    (∃ e s₁, parse_key s = (ParseResult.Err e, s₁)) ∨
    (∃ n v s₁, parse_key s = (ParseResult.StepOk (IniItem.Key n v), s₁) ∧
      (∀ c ∈ n, is_whitespace c = false ∧ c ≠ '=') ∧
      (n = [] ∨ n.head? = some s.next_char) ∧
      wf_text v ∧ reader_inv s₁ ∧ s₁.ini = s.ini) := by
  obtain ⟨s₁, n, hscan⟩ := scan_until_fuel_eq s '=' []
  obtain ⟨hinv₁, hini₁, Δ, hΔ, hΔc, hΔh⟩ := scan_until_spec _ _ _ _ _ _ hinv hscan
  rcases hmt : match_token s₁ '=' "parse_key" with ⟨r, s₂⟩
  cases r with
  | Err e => exact Or.inl ⟨e, s₂, parse_key_err1 hscan hmt⟩
  | Ok =>
    have hinv₂ : reader_inv s₂ := by
      have := reader_inv_match_token '=' "parse_key" hinv₁
      rw [hmt] at this
      exact this
    have hini₂ : s₂.ini = s₁.ini := by
      have := match_token_ini s₁ '=' "parse_key"
      rw [hmt] at this
      exact this
    rcases hrr : read_rest s₂ with ⟨rr, s₃⟩
    cases rr with
    | Err e => exact Or.inl ⟨e, s₃, parse_key_rr_err hscan hmt hrr⟩
    | Ok out =>
      obtain ⟨hwf, hinv₃, hini₃⟩ := read_rest_wf hinv₂ hrr
      refine Or.inr ⟨n, trim out, s₃, parse_key_ok hscan hmt hrr, ?_, ?_, hwf, hinv₃, ?_⟩
      · intro c hc
        rw [hΔ] at hc
        exact hΔc c (by simpa using hc)
      · rw [hΔ]
        simpa using hΔh
      · rw [hini₃, hini₂, hini₁]

theorem parse_key_ini (s : IniReader) : (parse_key s).2.ini = s.ini := by
  obtain ⟨s₁, n, hscan⟩ := scan_until_fuel_eq s '=' []
  have hini₁ : s₁.ini = s.ini := scan_until_ini _ _ _ _ _ _ hscan
  rcases hmt : match_token s₁ '=' "parse_key" with ⟨r, s₂⟩
  have hini₂ : s₂.ini = s₁.ini := by
    have := match_token_ini s₁ '=' "parse_key"
    rw [hmt] at this
    exact this
  cases r with
  | Err e =>
    rw [parse_key_err1 hscan hmt]
    show s₂.ini = s.ini
    rw [hini₂, hini₁]
  | Ok =>
    rcases hrr : read_rest s₂ with ⟨rr, s₃⟩
    have hini₃ : s₃.ini = s₂.ini := by
      have := read_rest_ini s₂
      rw [hrr] at this
      exact this
    cases rr with
    | Err e =>
      rw [parse_key_rr_err hscan hmt hrr]
      show s₃.ini = s.ini
      rw [hini₃, hini₂, hini₁]
    | Ok out =>
      rw [parse_key_ok hscan hmt hrr]
      show s₃.ini = s.ini
      rw [hini₃, hini₂, hini₁]

theorem mu_parse_key_le (s : IniReader) : mu (parse_key s).2 ≤ mu s := by
  obtain ⟨s₁, n, hscan⟩ := scan_until_fuel_eq s '=' []
  have hmu₁ : mu s₁ ≤ mu s := scan_until_mu _ _ _ _ _ _ hscan
  rcases hmt : match_token s₁ '=' "parse_key" with ⟨r, s₂⟩
  have hmu₂ : mu s₂ ≤ mu s₁ := by
    have := mu_match_token_le s₁ '=' "parse_key"
    rw [hmt] at this
    exact this
  cases r with
  | Err e =>
    rw [parse_key_err1 hscan hmt]
    show mu s₂ ≤ mu s
    omega
  | Ok =>
    rcases hrr : read_rest s₂ with ⟨rr, s₃⟩
    have hmu₃ : mu s₃ ≤ mu s₂ := by
      have := mu_read_rest_le s₂
      rw [hrr] at this
      exact this
    cases rr with
    | Err e =>
      rw [parse_key_rr_err hscan hmt hrr]
      show mu s₃ ≤ mu s
      omega
    | Ok out =>
      rw [parse_key_ok hscan hmt hrr]
      show mu s₃ ≤ mu s
      omega

theorem mu_parse_key_lt (s : IniReader) (hg : s.good = true) :
    mu (parse_key s).2 < mu s := by
  obtain ⟨s₁, n, hscan⟩ := scan_until_fuel_eq s '=' []
  by_cases hne : s.next_char = '='
  · have hs₁ : s₁ = s := by
      have heq : scan_until (s.stream.length + 2) '=' s [] = some (s, []) := by
        rw [show s.stream.length + 2 = (s.stream.length + 1) + 1 from rfl]
        rw [scan_until, if_neg (by rintro ⟨_, hx⟩; exact hx hne)]
      rw [heq] at hscan
      have := Option.some.inj hscan
      injection this with ha hb
      rw [← ha]
    have hmt : match_token s₁ '=' "parse_key" = (MatchResult.Ok, get_next_char s₁) :=
      match_token_run s₁ '=' "parse_key" (by rw [hs₁]; exact hne)
    have hlt : mu (get_next_char s₁) < mu s := by
      rw [hs₁]; exact mu_gnc_lt s hg
    rcases hrr : read_rest (get_next_char s₁) with ⟨rr, s₃⟩
    have hmu₃ : mu s₃ ≤ mu (get_next_char s₁) := by
      have := mu_read_rest_le (get_next_char s₁)
      rw [hrr] at this
      exact this
    cases rr with
    | Err e =>
      rw [parse_key_rr_err hscan hmt hrr]
      show mu s₃ < mu s
      omega
    | Ok out =>
      rw [parse_key_ok hscan hmt hrr]
      show mu s₃ < mu s
      omega
  · have hlt₁ : mu s₁ < mu s := scan_until_lt hg hne hscan
    rcases hmt : match_token s₁ '=' "parse_key" with ⟨r, s₂⟩
    have hmu₂ : mu s₂ ≤ mu s₁ := by
      have := mu_match_token_le s₁ '=' "parse_key"
      rw [hmt] at this
      exact this
    cases r with
    | Err e =>
      rw [parse_key_err1 hscan hmt]
      show mu s₂ < mu s
      omega
    | Ok =>
      rcases hrr : read_rest s₂ with ⟨rr, s₃⟩
      have hmu₃ : mu s₃ ≤ mu s₂ := by
        have := mu_read_rest_le s₂
        rw [hrr] at this
        exact this
      cases rr with
      | Err e =>
        rw [parse_key_rr_err hscan hmt hrr]
        show mu s₃ < mu s
        omega
      | Ok out =>
        rw [parse_key_ok hscan hmt hrr]
        show mu s₃ < mu s
        omega

/-! ## Shapes: `parse_comment` and `parse_key` return only `Err` or `StepOk` -/

theorem parse_comment_shape (s : IniReader) (root : Bool) :
    (∃ e s₁, parse_comment s root = (ParseResult.Err e, s₁)) ∨
    (∃ item s₁, parse_comment s root = (ParseResult.StepOk item, s₁)) := by
  rcases hmt : match_token s ';' "parse_comment" with ⟨r, s₁⟩
  cases r with
  | Err e => exact Or.inl ⟨e, s₁, parse_comment_err hmt⟩
  | Ok =>
    rcases hrr : read_rest s₁ with ⟨rr, s₂⟩
    cases rr with
    | Err e => exact Or.inl ⟨e, s₂, parse_comment_rr_err hmt hrr⟩
    | Ok out =>
      refine Or.inr ⟨?_, s₂, ?_⟩
      · exact if root then IniItem.Entry (Entry.Comment (trim out))
          else IniItem.SectionEntry (SectionEntry.Comment (trim out))
      · rw [parse_comment_ok hmt hrr]
        cases root <;> simp

theorem parse_key_shape (s : IniReader) :
    (∃ e s₁, parse_key s = (ParseResult.Err e, s₁)) ∨
    (∃ item s₁, parse_key s = (ParseResult.StepOk item, s₁)) := by
  obtain ⟨s₁, n, hscan⟩ := scan_until_fuel_eq s '=' []
  rcases hmt : match_token s₁ '=' "parse_key" with ⟨r, s₂⟩
  cases r with
  | Err e => exact Or.inl ⟨e, s₂, parse_key_err1 hscan hmt⟩
  | Ok =>
    rcases hrr : read_rest s₂ with ⟨rr, s₃⟩
    cases rr with
    | Err e => exact Or.inl ⟨e, s₃, parse_key_rr_err hscan hmt hrr⟩
    | Ok out => exact Or.inr ⟨_, s₃, parse_key_ok hscan hmt hrr⟩

theorem parse_section_name_shape (s : IniReader) :
    (∃ e s₁, parse_section_name s = (ParseResult.Err e, s₁)) ∨
    (∃ n s₁, parse_section_name s = (ParseResult.StepOk (IniItem.SectionName n), s₁)) := by
  rcases hmt : match_token s '[' "parse_section" with ⟨r, s₁⟩
  cases r with
  | Err e => exact Or.inl ⟨e, s₁, parse_section_name_err1 hmt⟩
  | Ok =>
    obtain ⟨s₂, name, hscan⟩ := scan_until_fuel_eq s₁ ']' []
    rcases h2 : match_token s₂ ']' "parse_section" with ⟨r2, s₃⟩
    cases r2 with
    | Err e => exact Or.inl ⟨e, s₃, parse_section_name_err2 hmt hscan h2⟩
    | Ok => exact Or.inr ⟨name, s₃, parse_section_name_ok hmt hscan h2⟩

/-! ## The section-body loop -/

theorem parse_section_loop_out : ∀ (fuel : Nat) (s : IniReader) (acc : List SectionEntry)
    {entries : List SectionEntry} {s₂ : IniReader}, reader_inv s →
    parse_section_loop fuel s acc = some (Except.ok entries, s₂) →
    reader_inv s₂ ∧ s₂.ini = s.ini ∧ (s₂.good = true → s₂.next_char = '[') ∧
      ∃ Δ, entries = acc ++ Δ ∧ ∀ e ∈ Δ, produced_entry e
  | 0, s, acc, entries, s₂, _, h => by simp [parse_section_loop] at h
  | fuel + 1, s, acc, entries, s₂, hinv, h => by
    rw [parse_section_loop] at h
    by_cases hg : s.good = true
    · rw [if_pos hg] at h
      by_cases hsemi : s.next_char = ';'
      · rw [if_pos hsemi] at h
        rcases hpc : parse_comment s false with ⟨r, s₁⟩
        rw [hpc] at h
        cases r with
        | Err e => simp at h
        | Ok =>
          rcases parse_comment_cases s false hinv with ⟨e, s₁x, heq, _⟩ | ⟨t, s₁x, heq, _⟩ <;>
            rw [heq] at hpc <;> simp at hpc
        | StepOk item =>
          rcases parse_comment_cases s false hinv with ⟨e, s₁x, heq, _⟩ |
            ⟨t, s₁x, heq, hwf, hinv₁, hini₁⟩
          · rw [heq] at hpc; simp at hpc
          · rw [heq] at hpc
            simp only [Prod.mk.injEq, ParseResult.StepOk.injEq] at hpc
            obtain ⟨hitem, hs₁⟩ := hpc
            have h3 : parse_section_loop fuel s₁ (acc ++ section_push item) =
                some (Except.ok entries, s₂) := h
            have hpush : section_push item = [] := by rw [← hitem]; rfl
            rw [hpush] at h3
            rw [hs₁] at hinv₁
            obtain ⟨hinv₂, hini₂, hexit, Δ, hΔ, hΔp⟩ :=
              parse_section_loop_out fuel s₁ (acc ++ []) hinv₁ h3
            refine ⟨hinv₂, by rw [hini₂, ← hs₁]; exact hini₁, hexit, Δ, by simpa using hΔ, hΔp⟩
      · rw [if_neg hsemi] at h
        by_cases hbr : s.next_char = '['
        · rw [if_pos hbr] at h
          have h2 := Option.some.inj h
          injection h2 with h2a h2b
          have hacc : entries = acc := by
            have h4 := congrArg (fun x => match x with | Except.ok l => l | _ => acc) h2a
            simpa using h4.symm
          rw [← h2b]
          exact ⟨hinv, rfl, fun _ => hbr, [], by simp [hacc], by simp⟩
        · rw [if_neg hbr] at h
          rcases hpk : parse_key s with ⟨r, s₁⟩
          rw [hpk] at h
          cases r with
          | Err e => simp at h
          | Ok =>
            rcases parse_key_cases s hinv with ⟨e, s₁x, heq⟩ |
              ⟨n, v, s₁x, heq, _⟩ <;> rw [heq] at hpk <;> simp at hpk
          | StepOk item =>
            rcases parse_key_cases s hinv with ⟨e, s₁x, heq⟩ |
              ⟨n, v, s₁x, heq, hnc, hnh, hv, hinv₁, hini₁⟩
            · rw [heq] at hpk; simp at hpk
            · rw [heq] at hpk
              simp only [Prod.mk.injEq, ParseResult.StepOk.injEq] at hpk
              obtain ⟨hitem, hs₁⟩ := hpk
              have h3 : parse_section_loop fuel s₁ (acc ++ section_push item) =
                  some (Except.ok entries, s₂) := h
              have hpush : section_push item = [SectionEntry.Key n v] := by
                rw [← hitem]; rfl
              rw [hpush] at h3
              rw [hs₁] at hinv₁
              obtain ⟨hinv₂, hini₂, hexit, Δ, hΔ, hΔp⟩ :=
                parse_section_loop_out fuel s₁ (acc ++ [SectionEntry.Key n v]) hinv₁ h3
              refine ⟨hinv₂, by rw [hini₂, ← hs₁]; exact hini₁, hexit,
                SectionEntry.Key n v :: Δ, by simpa using hΔ, ?_⟩
              intro e he
              rcases List.mem_cons.mp he with he | he
              · subst he
                refine ⟨⟨hnc, ?_⟩, hv⟩
                intro c hc
                rcases hnh with hnil | hhead
                · rw [hnil] at hc; simp at hc
                · rw [hhead] at hc
                  have hc2 : c = s.next_char := by
                    have := hc
                    simp at this
                    exact this.symm
                  rw [hc2]
                  exact ⟨hsemi, hbr⟩
              · exact hΔp e he
    · rw [if_neg hg] at h
      have h2 := Option.some.inj h
      injection h2 with h2a h2b
      have hacc : entries = acc := by
        have h4 := congrArg (fun x => match x with | Except.ok l => l | _ => acc) h2a
        simpa using h4.symm
      rw [← h2b]
      refine ⟨hinv, rfl, ?_, [], by simp [hacc], by simp⟩
      intro hgood
      exact absurd hgood hg

theorem parse_section_loop_ini : ∀ (fuel : Nat) (s : IniReader) (acc : List SectionEntry)
    {res : Except String (List SectionEntry) × IniReader},
    parse_section_loop fuel s acc = some res → res.2.ini = s.ini
  | 0, s, acc, res, h => by simp [parse_section_loop] at h
  | fuel + 1, s, acc, res, h => by
    rw [parse_section_loop] at h
    by_cases hg : s.good = true
    · rw [if_pos hg] at h
      by_cases hsemi : s.next_char = ';'
      · rw [if_pos hsemi] at h
        rcases hpc : parse_comment s false with ⟨r, s₁⟩
        rw [hpc] at h
        have hini₁ : s₁.ini = s.ini := by
          have := parse_comment_ini s false
          rw [hpc] at this
          exact this
        cases r with
        | Err e =>
          have h2 := Option.some.inj h
          rw [← h2]
          exact hini₁
        | Ok => rw [parse_section_loop_ini fuel s₁ acc h, hini₁]
        | StepOk item => rw [parse_section_loop_ini fuel s₁ _ h, hini₁]
      · rw [if_neg hsemi] at h
        by_cases hbr : s.next_char = '['
        · rw [if_pos hbr] at h
          have h2 := Option.some.inj h
          rw [← h2]
        · rw [if_neg hbr] at h
          rcases hpk : parse_key s with ⟨r, s₁⟩
          rw [hpk] at h
          have hini₁ : s₁.ini = s.ini := by
            have := parse_key_ini s
            rw [hpk] at this
            exact this
          cases r with
          | Err e =>
            have h2 := Option.some.inj h
            rw [← h2]
            exact hini₁
          | Ok => rw [parse_section_loop_ini fuel s₁ acc h, hini₁]
          | StepOk item => rw [parse_section_loop_ini fuel s₁ _ h, hini₁]
    · rw [if_neg hg] at h
      have h2 := Option.some.inj h
      rw [← h2]

theorem mu_parse_section_loop_le : ∀ (fuel : Nat) (s : IniReader) (acc : List SectionEntry)
    {res : Except String (List SectionEntry) × IniReader},
    parse_section_loop fuel s acc = some res → mu res.2 ≤ mu s
  | 0, s, acc, res, h => by simp [parse_section_loop] at h
  | fuel + 1, s, acc, res, h => by
    rw [parse_section_loop] at h
    by_cases hg : s.good = true
    · rw [if_pos hg] at h
      by_cases hsemi : s.next_char = ';'
      · rw [if_pos hsemi] at h
        rcases hpc : parse_comment s false with ⟨r, s₁⟩
        rw [hpc] at h
        have hmu₁ : mu s₁ ≤ mu s := by
          have := mu_parse_comment_le s false
          rw [hpc] at this
          exact this
        cases r with
        | Err e =>
          have h2 := Option.some.inj h
          rw [← h2]
          exact hmu₁
        | Ok => exact le_trans (mu_parse_section_loop_le fuel s₁ acc h) hmu₁
        | StepOk item => exact le_trans (mu_parse_section_loop_le fuel s₁ _ h) hmu₁
      · rw [if_neg hsemi] at h
        by_cases hbr : s.next_char = '['
        · rw [if_pos hbr] at h
          have h2 := Option.some.inj h
          rw [← h2]
        · rw [if_neg hbr] at h
          rcases hpk : parse_key s with ⟨r, s₁⟩
          rw [hpk] at h
          have hmu₁ : mu s₁ ≤ mu s := by
            have := mu_parse_key_le s
            rw [hpk] at this
            exact this
          cases r with
          | Err e =>
            have h2 := Option.some.inj h
            rw [← h2]
            exact hmu₁
          | Ok => exact le_trans (mu_parse_section_loop_le fuel s₁ acc h) hmu₁
          | StepOk item => exact le_trans (mu_parse_section_loop_le fuel s₁ _ h) hmu₁
    · rw [if_neg hg] at h
      have h2 := Option.some.inj h
      rw [← h2]

theorem parse_section_loop_total : ∀ (fuel : Nat) (s : IniReader) (acc : List SectionEntry),
    mu s < fuel → ∃ res, parse_section_loop fuel s acc = some res
  | 0, s, acc, h => absurd h (by omega)
  | fuel + 1, s, acc, h => by
    rw [parse_section_loop]
    by_cases hg : s.good = true
    · rw [if_pos hg]
      by_cases hsemi : s.next_char = ';'
      · rw [if_pos hsemi]
        rcases hpc : parse_comment s false with ⟨r, s₁⟩
        have hlt : mu s₁ < mu s := by
          have := mu_parse_comment_lt s false hsemi hg
          rw [hpc] at this
          exact this
        cases r with
        | Err e => exact ⟨_, rfl⟩
        | Ok => exact parse_section_loop_total fuel s₁ acc (by omega)
        | StepOk item => exact parse_section_loop_total fuel s₁ _ (by omega)
      · rw [if_neg hsemi]
        by_cases hbr : s.next_char = '['
        · rw [if_pos hbr]
          exact ⟨_, rfl⟩
        · rw [if_neg hbr]
          rcases hpk : parse_key s with ⟨r, s₁⟩
          have hlt : mu s₁ < mu s := by
            have := mu_parse_key_lt s hg
            rw [hpk] at this
            exact this
          cases r with
          | Err e => exact ⟨_, rfl⟩
          | Ok => exact parse_section_loop_total fuel s₁ acc (by omega)
          | StepOk item => exact parse_section_loop_total fuel s₁ _ (by omega)
    · rw [if_neg hg]
      exact ⟨_, rfl⟩

/-! ## `parse_section` -/

theorem parse_section_eq_err1 {s : IniReader} {e : String} {s₁ : IniReader}
    (hpsn : parse_section_name s = (ParseResult.Err e, s₁)) :
    parse_section s = (ParseResult.Err e, s₁) := by
  simp only [parse_section, hpsn]

theorem parse_section_eq_err2 {s s₁ s₂ : IniReader} {n : List Char} {e : String}
    (hpsn : parse_section_name s = (ParseResult.StepOk (IniItem.SectionName n), s₁))
    (hpsl : parse_section_loop (s₁.stream.length + 2) s₁ [] = some (Except.error e, s₂)) :
    parse_section s = (ParseResult.Err e, s₂) := by
  simp only [parse_section, hpsn, hpsl]

theorem parse_section_eq_ok {s s₁ s₂ : IniReader} {n : List Char}
    {entries : List SectionEntry}
    (hpsn : parse_section_name s = (ParseResult.StepOk (IniItem.SectionName n), s₁))
    (hpsl : parse_section_loop (s₁.stream.length + 2) s₁ [] = some (Except.ok entries, s₂)) :
    parse_section s =
      (ParseResult.StepOk (IniItem.Entry (Entry.Section { name := n, entries := entries })),
        s₂) := by
  simp only [parse_section, hpsn, hpsl]

theorem parse_section_cases (s : IniReader) (hinv : reader_inv s) (hg : s.good = true) :
    (∃ e s₁, parse_section s = (ParseResult.Err e, s₁)) ∨
    (∃ sec s₁, parse_section s = (ParseResult.StepOk (IniItem.Entry (Entry.Section sec)), s₁) ∧
      wf_section_name sec.name ∧ (∀ e ∈ sec.entries, produced_entry e) ∧
      reader_inv s₁ ∧ s₁.ini = s.ini ∧ (s₁.good = true → s₁.next_char = '[') ∧
      mu s₁ < mu s) := by
  rcases parse_section_name_cases s hinv with ⟨e, s₁, heq⟩ | ⟨n, s₁, heq, hwfn, hinv₁, hini₁⟩
  · exact Or.inl ⟨e, s₁, parse_section_eq_err1 heq⟩
  · have hmu₁ : mu s₁ < mu s := mu_parse_section_name_lt hg heq
    obtain ⟨res, hpsl⟩ :=
      parse_section_loop_total (s₁.stream.length + 2) s₁ [] (mu_le_fuel_bound s₁)
    rcases res with ⟨exc, s₂⟩
    have hmu₂ : mu s₂ ≤ mu s₁ := mu_parse_section_loop_le _ _ _ hpsl
    cases exc with
    | error e => exact Or.inl ⟨e, s₂, parse_section_eq_err2 heq hpsl⟩
    | ok entries =>
      obtain ⟨hinv₂, hini₂, hexit, Δ, hΔ, hΔp⟩ := parse_section_loop_out _ _ _ hinv₁ hpsl
      refine Or.inr ⟨{ name := n, entries := entries }, s₂,
        parse_section_eq_ok heq hpsl, hwfn, ?_, hinv₂, by rw [hini₂, hini₁], hexit, by omega⟩
      intro e he
      rw [hΔ] at he
      exact hΔp e (by simpa using he)

theorem parse_section_ini (s : IniReader) : (parse_section s).2.ini = s.ini := by
  rcases parse_section_name_shape s with ⟨e, s₁, heq⟩ | ⟨n, s₁, heq⟩
  · rw [parse_section_eq_err1 heq]
    have h1 := parse_section_name_ini s
    rw [heq] at h1
    exact h1
  · have hini₁ : s₁.ini = s.ini := by
      have h1 := parse_section_name_ini s
      rw [heq] at h1
      exact h1
    obtain ⟨res, hpsl⟩ :=
      parse_section_loop_total (s₁.stream.length + 2) s₁ [] (mu_le_fuel_bound s₁)
    rcases res with ⟨exc, s₂⟩
    have hini₂ : s₂.ini = s₁.ini := parse_section_loop_ini _ _ _ hpsl
    cases exc with
    | error e =>
      rw [parse_section_eq_err2 heq hpsl]
      show s₂.ini = s.ini
      rw [hini₂, hini₁]
    | ok entries =>
      rw [parse_section_eq_ok heq hpsl]
      show s₂.ini = s.ini
      rw [hini₂, hini₁]

theorem parse_section_shape (s : IniReader) :
    (∃ e s₁, parse_section s = (ParseResult.Err e, s₁)) ∨
    (∃ item s₁, parse_section s = (ParseResult.StepOk item, s₁)) := by
  rcases parse_section_name_shape s with ⟨e, s₁, heq⟩ | ⟨n, s₁, heq⟩
  · exact Or.inl ⟨e, s₁, parse_section_eq_err1 heq⟩
  · obtain ⟨res, hpsl⟩ :=
      parse_section_loop_total (s₁.stream.length + 2) s₁ [] (mu_le_fuel_bound s₁)
    rcases res with ⟨exc, s₂⟩
    cases exc with
    | error e => exact Or.inl ⟨e, s₂, parse_section_eq_err2 heq hpsl⟩
    | ok entries => exact Or.inr ⟨_, s₂, parse_section_eq_ok heq hpsl⟩

theorem mu_parse_section_lt {s : IniReader} {item : IniItem} {s₂ : IniReader}
    (hg : s.good = true)
    (h : parse_section s = (ParseResult.StepOk item, s₂)) : mu s₂ < mu s := by
  rcases parse_section_name_shape s with ⟨e, s₁, heq⟩ | ⟨n, s₁, heq⟩
  · rw [parse_section_eq_err1 heq] at h
    simp at h
  · have hmu₁ : mu s₁ < mu s := mu_parse_section_name_lt hg heq
    obtain ⟨res, hpsl⟩ :=
      parse_section_loop_total (s₁.stream.length + 2) s₁ [] (mu_le_fuel_bound s₁)
    rcases res with ⟨exc, s₂x⟩
    have hmu₂ : mu s₂x ≤ mu s₁ := mu_parse_section_loop_le _ _ _ hpsl
    cases exc with
    | error e =>
      rw [parse_section_eq_err2 heq hpsl] at h
      simp at h
    | ok entries =>
      rw [parse_section_eq_ok heq hpsl] at h
      have hs : s₂x = s₂ := congrArg Prod.snd h
      rw [← hs]
      omega

/-! ## The top-level loop -/

theorem parse_loop_total : ∀ (fuel : Nat) (s : IniReader), mu s < fuel →
    ∃ res, parse_loop fuel s = some res ∧
      (res.1 = ParseResult.Ok ∨ ∃ e, res.1 = ParseResult.Err e)
  | 0, s, h => absurd h (by omega)
  | fuel + 1, s, h => by
    rw [parse_loop]
    by_cases hg : s.good = true
    · rw [if_pos hg]
      by_cases hsemi : s.next_char = ';'
      · rw [if_pos hsemi]
        rcases hpc : parse_comment s true with ⟨r, s₁⟩
        have hlt : mu s₁ < mu s := by
          have := mu_parse_comment_lt s true hsemi hg
          rw [hpc] at this
          exact this
        cases r with
        | Err e => exact ⟨(ParseResult.Err e, s₁), rfl, Or.inr ⟨e, rfl⟩⟩
        | Ok => exact parse_loop_total fuel s₁ (by omega)
        | StepOk item =>
          cases item with
          | Entry entry =>
            refine parse_loop_total fuel { s₁ with ini := s₁.ini ++ [entry] } ?_
            rw [show mu { s₁ with ini := s₁.ini ++ [entry] } = mu s₁ from rfl]
            omega
          | Section sec => exact parse_loop_total fuel s₁ (by omega)
          | SectionEntry se => exact parse_loop_total fuel s₁ (by omega)
          | SectionName n => exact parse_loop_total fuel s₁ (by omega)
          | Key n v => exact parse_loop_total fuel s₁ (by omega)
          | Comment t => exact parse_loop_total fuel s₁ (by omega)
      · rw [if_neg hsemi]
        rcases hps : parse_section s with ⟨r, s₁⟩
        cases r with
        | Err e => exact ⟨(ParseResult.Err e, s₁), rfl, Or.inr ⟨e, rfl⟩⟩
        | Ok =>
          rcases parse_section_shape s with ⟨e, s₁x, heq⟩ | ⟨item, s₁x, heq⟩ <;>
            rw [heq] at hps <;> simp at hps
        | StepOk item =>
          have hlt : mu s₁ < mu s := mu_parse_section_lt hg hps
          cases item with
          | Entry entry =>
            refine parse_loop_total fuel { s₁ with ini := s₁.ini ++ [entry] } ?_
            rw [show mu { s₁ with ini := s₁.ini ++ [entry] } = mu s₁ from rfl]
            omega
          | Section sec => exact parse_loop_total fuel s₁ (by omega)
          | SectionEntry se => exact parse_loop_total fuel s₁ (by omega)
          | SectionName n => exact parse_loop_total fuel s₁ (by omega)
          | Key n v => exact parse_loop_total fuel s₁ (by omega)
          | Comment t => exact parse_loop_total fuel s₁ (by omega)
    · rw [if_neg hg]
      exact ⟨(ParseResult.Ok, s), rfl, Or.inl rfl⟩

theorem parse_loop_prefix : ∀ (fuel : Nat) (s : IniReader)
    {res : ParseResult × IniReader},
    parse_loop fuel s = some res → s.ini <+: res.2.ini
  | 0, s, res, h => by simp [parse_loop] at h
  | fuel + 1, s, res, h => by
    rw [parse_loop] at h
    by_cases hg : s.good = true
    · rw [if_pos hg] at h
      by_cases hsemi : s.next_char = ';'
      · rw [if_pos hsemi] at h
        rcases hpc : parse_comment s true with ⟨r, s₁⟩
        rw [hpc] at h
        have hini₁ : s₁.ini = s.ini := by
          have := parse_comment_ini s true
          rw [hpc] at this
          exact this
        cases r with
        | Err e =>
          have h2 := Option.some.inj h
          rw [← h2]
          show s.ini <+: s₁.ini
          rw [hini₁]
        | Ok =>
          have h3 : parse_loop fuel s₁ = some res := h
          have := parse_loop_prefix fuel s₁ h3
          rw [hini₁] at this
          exact this
        | StepOk item =>
          cases item with
          | Entry entry =>
            have h3 : parse_loop fuel { s₁ with ini := s₁.ini ++ [entry] } = some res := h
            have hpre := parse_loop_prefix fuel _ h3
            have : s.ini <+: s₁.ini ++ [entry] := by
              rw [hini₁]
              exact List.prefix_append _ _
            exact this.trans hpre
          | Section sec =>
            have h3 : parse_loop fuel s₁ = some res := h
            have := parse_loop_prefix fuel s₁ h3
            rw [hini₁] at this
            exact this
          | SectionEntry se =>
            have h3 : parse_loop fuel s₁ = some res := h
            have := parse_loop_prefix fuel s₁ h3
            rw [hini₁] at this
            exact this
          | SectionName n =>
            have h3 : parse_loop fuel s₁ = some res := h
            have := parse_loop_prefix fuel s₁ h3
            rw [hini₁] at this
            exact this
          | Key n v =>
            have h3 : parse_loop fuel s₁ = some res := h
            have := parse_loop_prefix fuel s₁ h3
            rw [hini₁] at this
            exact this
          | Comment t =>
            have h3 : parse_loop fuel s₁ = some res := h
            have := parse_loop_prefix fuel s₁ h3
            rw [hini₁] at this
            exact this
      · rw [if_neg hsemi] at h
        rcases hps : parse_section s with ⟨r, s₁⟩
        rw [hps] at h
        have hini₁ : s₁.ini = s.ini := by
          have := parse_section_ini s
          rw [hps] at this
          exact this
        cases r with
        | Err e =>
          have h2 := Option.some.inj h
          rw [← h2]
          show s.ini <+: s₁.ini
          rw [hini₁]
        | Ok =>
          have h3 : parse_loop fuel s₁ = some res := h
          have := parse_loop_prefix fuel s₁ h3
          rw [hini₁] at this
          exact this
        | StepOk item =>
          cases item with
          | Entry entry =>
            have h3 : parse_loop fuel { s₁ with ini := s₁.ini ++ [entry] } = some res := h
            have hpre := parse_loop_prefix fuel _ h3
            have : s.ini <+: s₁.ini ++ [entry] := by
              rw [hini₁]
              exact List.prefix_append _ _
            exact this.trans hpre
          | Section sec =>
            have h3 : parse_loop fuel s₁ = some res := h
            have := parse_loop_prefix fuel s₁ h3
            rw [hini₁] at this
            exact this
          | SectionEntry se =>
            have h3 : parse_loop fuel s₁ = some res := h
            have := parse_loop_prefix fuel s₁ h3
            rw [hini₁] at this
            exact this
          | SectionName n =>
            have h3 : parse_loop fuel s₁ = some res := h
            have := parse_loop_prefix fuel s₁ h3
            rw [hini₁] at this
            exact this
          | Key n v =>
            have h3 : parse_loop fuel s₁ = some res := h
            have := parse_loop_prefix fuel s₁ h3
            rw [hini₁] at this
            exact this
          | Comment t =>
            have h3 : parse_loop fuel s₁ = some res := h
            have := parse_loop_prefix fuel s₁ h3
            rw [hini₁] at this
            exact this
    · rw [if_neg hg] at h
      have h2 := Option.some.inj h
      rw [← h2]

theorem parse_loop_out : ∀ (fuel : Nat) (s : IniReader) {s₂ : IniReader}
    (cs : List (List Char)) (ss : List Section),
    reader_inv s →
    s.ini = cs.map Entry.Comment ++ ss.map Entry.Section →
    (∀ t ∈ cs, wf_text t) →
    (∀ sec ∈ ss, wf_section_name sec.name ∧ ∀ e ∈ sec.entries, produced_entry e) →
    (ss ≠ [] → s.good = true → s.next_char = '[') →
    parse_loop fuel s = some (ParseResult.Ok, s₂) →
    produced_doc s₂.ini
  | 0, s, s₂, cs, ss, _, _, _, _, _, h => by simp [parse_loop] at h
  | fuel + 1, s, s₂, cs, ss, hinv, hshape, hcs, hss, hbr, h => by
    rw [parse_loop] at h
    by_cases hg : s.good = true
    · rw [if_pos hg] at h
      by_cases hsemi : s.next_char = ';'
      · rw [if_pos hsemi] at h
        have hssnil : ss = [] := by
          by_contra hne
          have h4 := hbr hne hg
          rw [hsemi] at h4
          exact absurd h4 (by decide)
        rcases hpc : parse_comment s true with ⟨r, s₁⟩
        rw [hpc] at h
        cases r with
        | Err e => simp at h
        | Ok =>
          rcases parse_comment_cases s true hinv with ⟨e, s₁x, heq, _⟩ | ⟨t, s₁x, heq, _⟩ <;>
            rw [heq] at hpc <;> simp at hpc
        | StepOk item =>
          rcases parse_comment_cases s true hinv with ⟨e, s₁x, heq, _⟩ |
            ⟨t, s₁x, heq, hwf, hinv₁, hini₁⟩
          · rw [heq] at hpc; simp at hpc
          · rw [heq] at hpc
            simp only [Prod.mk.injEq, ParseResult.StepOk.injEq] at hpc
            obtain ⟨hitem, hs₁⟩ := hpc
            rw [hs₁] at hinv₁ hini₁
            have hitem2 : item = IniItem.Entry (Entry.Comment t) := by
              rw [← hitem]; rfl
            rw [hitem2] at h
            have h3 : parse_loop fuel { s₁ with ini := s₁.ini ++ [Entry.Comment t] } =
                some (ParseResult.Ok, s₂) := h
            refine parse_loop_out fuel { s₁ with ini := s₁.ini ++ [Entry.Comment t] }
              (cs ++ [t]) []
              (show reader_inv { s₁ with ini := s₁.ini ++ [Entry.Comment t] } from
                ⟨hinv₁.1, hinv₁.2⟩) ?_ ?_ ?_ ?_ h3
            · show s₁.ini ++ [Entry.Comment t] =
                (cs ++ [t]).map Entry.Comment ++ ([] : List Section).map Entry.Section
              rw [hini₁, hshape, hssnil]
              simp
            · intro x hx
              rcases List.mem_append.mp hx with hx | hx
              · exact hcs x hx
              · rw [List.mem_singleton.mp hx]; exact hwf
            · intro sec hsec; simp at hsec
            · intro hne; exact absurd rfl hne
      · rw [if_neg hsemi] at h
        rcases hps : parse_section s with ⟨r, s₁⟩
        rw [hps] at h
        cases r with
        | Err e => simp at h
        | Ok =>
          rcases parse_section_shape s with ⟨e, s₁x, heq⟩ | ⟨item, s₁x, heq⟩ <;>
            rw [heq] at hps <;> simp at hps
        | StepOk item =>
          rcases parse_section_cases s hinv hg with ⟨e, s₁x, heq⟩ |
            ⟨sec, s₁x, heq, hwfn, hpe, hinv₁, hini₁, hexit, _⟩
          · rw [heq] at hps; simp at hps
          · rw [heq] at hps
            simp only [Prod.mk.injEq, ParseResult.StepOk.injEq] at hps
            obtain ⟨hitem, hs₁⟩ := hps
            rw [hs₁] at hinv₁ hini₁ hexit
            rw [← hitem] at h
            have h3 : parse_loop fuel { s₁ with ini := s₁.ini ++ [Entry.Section sec] } =
                some (ParseResult.Ok, s₂) := h
            refine parse_loop_out fuel { s₁ with ini := s₁.ini ++ [Entry.Section sec] }
              cs (ss ++ [sec])
              (show reader_inv { s₁ with ini := s₁.ini ++ [Entry.Section sec] } from
                ⟨hinv₁.1, hinv₁.2⟩) ?_ hcs ?_ ?_ h3
            · show s₁.ini ++ [Entry.Section sec] =
                cs.map Entry.Comment ++ (ss ++ [sec]).map Entry.Section
              rw [hini₁, hshape]
              simp
            · intro x hx
              rcases List.mem_append.mp hx with hx | hx
              · exact hss x hx
              · rw [List.mem_singleton.mp hx]; exact ⟨hwfn, hpe⟩
            · intro _ hgood
              exact hexit hgood
    · rw [if_neg hg] at h
      have h2 := Option.some.inj h
      injection h2 with h2a h2b
      rw [← h2b]
      exact ⟨cs, ss, hshape, hcs, hss⟩

/-! ## `parse` and `parse_file` -/

theorem parse_eq {s : IniReader} {res : ParseResult × IniReader}
    (h : parse_loop ((get_next_char s).stream.length + 2) (get_next_char s) = some res) :
    parse s = res := by
  simp only [parse, h]

theorem reader_inv_start (input : List Char) :
    reader_inv (get_next_char (init_reader input)) := by
  refine reader_inv_gnc _ ?_
  intro h
  simp [init_reader] at h

theorem parse_file_runs (input : List Char) :
    ∃ res, parse_loop ((get_next_char (init_reader input)).stream.length + 2)
        (get_next_char (init_reader input)) = some res ∧
      parse_file input = res ∧ (res.1 = ParseResult.Ok ∨ ∃ e, res.1 = ParseResult.Err e) := by
  obtain ⟨res, hres, hclass⟩ :=
    parse_loop_total ((get_next_char (init_reader input)).stream.length + 2)
      (get_next_char (init_reader input)) (mu_le_fuel_bound _)
  exact ⟨res, hres, parse_eq hres, hclass⟩

theorem parse_file_produced (input : List Char)
    (h : (parse_file input).1 = ParseResult.Ok) :
    produced_doc (parse_file input).2.ini := by
  obtain ⟨res, hloop, hpf, _⟩ := parse_file_runs input
  rw [hpf] at h ⊢
  have hres : res = (ParseResult.Ok, res.2) := by
    rw [← h]
  rw [hres] at hloop
  refine parse_loop_out _ _ [] [] (reader_inv_start input) ?_ ?_ ?_ ?_ hloop
  · rw [gnc_ini]
    rfl
  · intro t ht; simp at ht
  · intro sec hsec; simp at hsec
  · intro hne; exact absurd rfl hne

/-! ## Running the parser over serialized text -/

theorem scan_until_stop (s : IniReader) (stop : Char) (acc : List Char)
    (h : s.next_char = stop) :
    ∀ fuel, 1 ≤ fuel → scan_until fuel stop s acc = some (s, acc) := by
  intro fuel hf
  cases fuel with
  | zero => omega
  | succ f =>
    rw [scan_until, if_neg]
    rintro ⟨_, hx⟩
    exact hx h

theorem scan_run : ∀ (bound : Nat) (l : List Char), l.length ≤ bound →
    ∀ (c₀ stop : Char) (rest : List Char) (i : IniFile) (acc : List Char) (fuel : Nat),
    is_whitespace c₀ = false → c₀ ≠ stop → is_whitespace stop = false →
    (∀ c ∈ l, c ≠ stop) → l.length + 2 ≤ fuel →
    scan_until fuel stop ⟨l ++ stop :: rest, c₀, i, true⟩ acc =
      some (⟨rest, stop, i, true⟩,
        acc ++ (c₀ :: l).filter (fun c => !is_whitespace c)) := by
  intro bound
  induction bound with
  | zero =>
    intro l hb c₀ stop rest i acc fuel hc₀ hne hstop hl hfuel
    have hl0 : l = [] := by
      cases l with
      | nil => rfl
      | cons a b => simp at hb
    subst hl0
    cases fuel with
    | zero => omega
    | succ f =>
      rw [scan_until, if_pos ⟨rfl, hne⟩]
      dsimp only
      rw [show get_next_char ⟨[] ++ stop :: rest, c₀, i, true⟩ =
          ⟨rest, stop, i, true⟩ from gnc_run [] rest c₀ i true (by simp) hstop]
      rw [scan_until_stop ⟨rest, stop, i, true⟩ stop (acc ++ [c₀]) rfl f (by omega)]
      simp [List.filter, hc₀]
  | succ bound ih =>
    intro l hb c₀ stop rest i acc fuel hc₀ hne hstop hl hfuel
    cases fuel with
    | zero => omega
    | succ f =>
      rw [scan_until, if_pos ⟨rfl, hne⟩]
      dsimp only
      cases hdrop : l.dropWhile is_whitespace with
      | nil =>
        have hall : ∀ w ∈ l, is_whitespace w = true := List.dropWhile_eq_nil_iff.mp hdrop
        rw [show get_next_char ⟨l ++ stop :: rest, c₀, i, true⟩ =
            ⟨rest, stop, i, true⟩ from gnc_run l rest c₀ i true hall hstop]
        rw [scan_until_stop ⟨rest, stop, i, true⟩ stop (acc ++ [c₀]) rfl f (by omega)]
        have hfilter : (c₀ :: l).filter (fun c => !is_whitespace c) = [c₀] := by
          rw [List.filter_cons_of_pos (by simp [hc₀])]
          rw [List.filter_eq_nil_iff.mpr (by intro a ha; simp [hall a ha])]
        rw [hfilter]
      | cons c₁ l₁ =>
        have hsplit : l.takeWhile is_whitespace ++ c₁ :: l₁ = l := by
          rw [← hdrop]; exact List.takeWhile_append_dropWhile is_whitespace l
        have hc₁ : is_whitespace c₁ = false := dropWhile_head_false hdrop
        have hc₁mem : c₁ ∈ l := by rw [← hsplit]; simp
        have hstream : l ++ stop :: rest =
            l.takeWhile is_whitespace ++ c₁ :: (l₁ ++ stop :: rest) := by
          conv_lhs => rw [← hsplit]
          simp
        rw [show get_next_char ⟨l ++ stop :: rest, c₀, i, true⟩ =
            ⟨l₁ ++ stop :: rest, c₁, i, true⟩ from by
          rw [hstream]
          exact gnc_run _ _ c₀ i true (fun w hw => List.mem_takeWhile_imp hw) hc₁]
        have hlen : (l.takeWhile is_whitespace).length + (l₁.length + 1) = l.length := by
          rw [show l₁.length + 1 = (c₁ :: l₁).length from rfl, ← List.length_append, hsplit]
        rw [ih l₁ (by omega) c₁ stop rest i (acc ++ [c₀]) f hc₁ (hl c₁ hc₁mem) hstop
          (fun c hc => hl c (by rw [← hsplit]; simp [hc])) (by omega)]
        have hfilter : acc ++ (c₀ :: l).filter (fun c => !is_whitespace c) =
            (acc ++ [c₀]) ++ (c₁ :: l₁).filter (fun c => !is_whitespace c) := by
          rw [List.filter_cons_of_pos (by simp [hc₀])]
          rw [← hsplit, List.filter_append]
          rw [List.filter_eq_nil_iff.mpr
            (by intro a ha; simp [List.mem_takeWhile_imp ha])]
          simp
        rw [hfilter]

theorem read_rest_line (c₀ : Char) (m rest : List Char) (i : IniFile)
    (hc : is_whitespace c₀ = false) (hm : '\n' ∉ m) :
    read_rest ⟨m ++ '\n' :: rest, c₀, i, true⟩ =
      (ReadResult.Ok (c₀ :: (m ++ ['\n'])), mid_state rest i) := by
  have hinv : reader_inv ⟨m ++ '\n' :: rest, c₀, i, true⟩ :=
    ⟨fun _ => hc, by intro h; simp at h⟩
  rw [read_rest_eq_of_inv hinv]
  have hrl : read_line (m ++ '\n' :: rest) = some (m ++ ['\n'], rest) := by
    cases hm2 : m ++ '\n' :: rest with
    | nil => exact absurd hm2 (by simp)
    | cons a b =>
      rw [show read_line (a :: b) = some (take_line (a :: b)) from rfl]
      rw [← hm2, take_line_newline rest hm]
  rw [hrl]
  show (ReadResult.Ok (c₀ :: (m ++ ['\n'])), get_next_char ⟨rest, c₀, i, true⟩) = _
  rw [show get_next_char ⟨rest, c₀, i, true⟩ = mid_state rest i from
    gnc_next_irrel rest i true c₀ ' ']

theorem parse_comment_run (t rest : List Char) (i : IniFile) (root : Bool)
    (hne : t ≠ []) (htr : trim t = t) (hnl : '\n' ∉ t) :
    parse_comment ⟨' ' :: (t ++ '\n' :: rest), ';', i, true⟩ root =
      (if root then (ParseResult.StepOk (IniItem.Entry (Entry.Comment t)), mid_state rest i)
       else (ParseResult.StepOk (IniItem.SectionEntry (SectionEntry.Comment t)),
         mid_state rest i)) := by
  obtain ⟨t₀, t₂, ht⟩ := List.exists_cons_of_ne_nil hne
  have ht₀ : is_whitespace t₀ = false := trim_head_not_ws (by rw [← ht]; rw [ht] at htr ⊢; exact htr)
  have hmt := match_token_run ⟨' ' :: (t ++ '\n' :: rest), ';', i, true⟩ ';' "parse_comment" rfl
  have hgnc : get_next_char ⟨' ' :: (t ++ '\n' :: rest), ';', i, true⟩ =
      ⟨t₂ ++ '\n' :: rest, t₀, i, true⟩ := by
    rw [show ' ' :: (t ++ '\n' :: rest) = [' '] ++ t₀ :: (t₂ ++ '\n' :: rest) from by
      rw [ht]; simp]
    exact gnc_run [' '] _ ';' i true (by intro w hw; simp at hw; rw [hw]; decide) ht₀
  rw [hgnc] at hmt
  have hrr : read_rest ⟨t₂ ++ '\n' :: rest, t₀, i, true⟩ =
      (ReadResult.Ok (t₀ :: (t₂ ++ ['\n'])), mid_state rest i) :=
    read_rest_line t₀ t₂ rest i ht₀ (by intro hx; exact hnl (by rw [ht]; simp [hx]))
  rw [parse_comment_ok hmt hrr]
  have htrim : trim (t₀ :: (t₂ ++ ['\n'])) = t := by
    rw [show t₀ :: (t₂ ++ ['\n']) = (t₀ :: t₂) ++ ['\n'] from by simp]
    rw [trim_newline, ← ht, htr]
  rw [htrim]

theorem read_rest_value (m rest : List Char) (i : IniFile) (x : Char)
    (hm : '\n' ∉ m) (hd : m.dropWhile is_whitespace ≠ []) :
    ∃ out, read_rest (get_next_char ⟨m ++ '\n' :: rest, x, i, true⟩) =
        (ReadResult.Ok out, mid_state rest i) ∧ trim out = trim m := by
  obtain ⟨d, m₂, hdm⟩ := List.exists_cons_of_ne_nil hd
  have hd_ws : is_whitespace d = false := dropWhile_head_false hdm
  have hsplit : m.takeWhile is_whitespace ++ d :: m₂ = m := by
    rw [← hdm]; exact List.takeWhile_append_dropWhile is_whitespace m
  have hm₂ : '\n' ∉ m₂ := by
    intro hx
    exact hm (by rw [← hsplit]; simp [hx])
  have hstream : m ++ '\n' :: rest =
      m.takeWhile is_whitespace ++ d :: (m₂ ++ '\n' :: rest) := by
    conv_lhs => rw [← hsplit]
    simp
  have hgnc : get_next_char ⟨m ++ '\n' :: rest, x, i, true⟩ =
      ⟨m₂ ++ '\n' :: rest, d, i, true⟩ := by
    rw [hstream]
    exact gnc_run _ _ x i true (fun w hw => List.mem_takeWhile_imp hw) hd_ws
  refine ⟨d :: (m₂ ++ ['\n']), ?_, ?_⟩
  · rw [hgnc]
    exact read_rest_line d m₂ rest i hd_ws hm₂
  · rw [show d :: (m₂ ++ ['\n']) = (d :: m₂) ++ ['\n'] from by simp]
    rw [trim_newline]
    conv_rhs => rw [← hsplit]
    rw [trim_ws_front _ (fun w hw => List.mem_takeWhile_imp hw)]

theorem parse_key_run (c₀ : Char) (l m rest : List Char) (i : IniFile)
    (hc₀ : is_whitespace c₀ = false) (hc₀ne : c₀ ≠ '=')
    (hl : ∀ c ∈ l, c ≠ '=')
    (hm : '\n' ∉ m) (hd : m.dropWhile is_whitespace ≠ []) :
    parse_key ⟨l ++ '=' :: (m ++ '\n' :: rest), c₀, i, true⟩ =
      (ParseResult.StepOk
        (IniItem.Key ((c₀ :: l).filter (fun c => !is_whitespace c)) (trim m)),
        mid_state rest i) := by
  have hscan : scan_until
      ((⟨l ++ '=' :: (m ++ '\n' :: rest), c₀, i, true⟩ : IniReader).stream.length + 2)
      '=' ⟨l ++ '=' :: (m ++ '\n' :: rest), c₀, i, true⟩ [] =
      some (⟨m ++ '\n' :: rest, '=', i, true⟩,
        [] ++ (c₀ :: l).filter (fun c => !is_whitespace c)) := by
    refine scan_run l.length l (le_refl _) c₀ '=' (m ++ '\n' :: rest) i [] _ hc₀ hc₀ne
      (by decide) hl ?_
    simp only [List.length_append, List.length_cons]
    omega
  have hmt := match_token_run ⟨m ++ '\n' :: rest, '=', i, true⟩ '=' "parse_key" rfl
  obtain ⟨out, hrr, htr⟩ := read_rest_value m rest i '=' hm hd
  rw [parse_key_ok hscan hmt hrr, htr]
  simp

theorem parse_key_run_empty (m rest : List Char) (i : IniFile)
    (hm : '\n' ∉ m) (hd : m.dropWhile is_whitespace ≠ []) :
    parse_key ⟨m ++ '\n' :: rest, '=', i, true⟩ =
      (ParseResult.StepOk (IniItem.Key [] (trim m)), mid_state rest i) := by
  have hscan : scan_until
      ((⟨m ++ '\n' :: rest, '=', i, true⟩ : IniReader).stream.length + 2)
      '=' ⟨m ++ '\n' :: rest, '=', i, true⟩ [] =
      some (⟨m ++ '\n' :: rest, '=', i, true⟩, []) :=
    scan_until_stop _ '=' [] rfl _ (by omega)
  have hmt := match_token_run ⟨m ++ '\n' :: rest, '=', i, true⟩ '=' "parse_key" rfl
  obtain ⟨out, hrr, htr⟩ := read_rest_value m rest i '=' hm hd
  rw [parse_key_ok hscan hmt hrr, htr]

theorem parse_section_name_run (name rest : List Char) (i : IniFile)
    (hname : ∀ c ∈ name, is_whitespace c = false ∧ c ≠ ']') :
    parse_section_name ⟨name ++ ']' :: rest, '[', i, true⟩ =
      (ParseResult.StepOk (IniItem.SectionName name), mid_state rest i) := by
  have hmt := match_token_run ⟨name ++ ']' :: rest, '[', i, true⟩ '[' "parse_section" rfl
  cases name with
  | nil =>
    have hgnc : get_next_char ⟨[] ++ ']' :: rest, '[', i, true⟩ =
        ⟨rest, ']', i, true⟩ := gnc_run [] rest '[' i true (by simp) (by decide)
    rw [hgnc] at hmt
    have hscan : scan_until
        ((⟨rest, ']', i, true⟩ : IniReader).stream.length + 2) ']'
        ⟨rest, ']', i, true⟩ [] = some (⟨rest, ']', i, true⟩, []) :=
      scan_until_stop _ ']' [] rfl _ (by omega)
    have h2 := match_token_run ⟨rest, ']', i, true⟩ ']' "parse_section" rfl
    rw [show get_next_char ⟨rest, ']', i, true⟩ = mid_state rest i from
      gnc_next_irrel rest i true ']' ' '] at h2
    exact parse_section_name_ok hmt hscan h2
  | cons n₀ n₂ =>
    have hn₀ : is_whitespace n₀ = false := (hname n₀ (by simp)).1
    have hgnc : get_next_char ⟨(n₀ :: n₂) ++ ']' :: rest, '[', i, true⟩ =
        ⟨n₂ ++ ']' :: rest, n₀, i, true⟩ := by
      rw [show (n₀ :: n₂) ++ ']' :: rest = [] ++ n₀ :: (n₂ ++ ']' :: rest) from by simp]
      exact gnc_run [] _ '[' i true (by simp) hn₀
    rw [hgnc] at hmt
    have hscan : scan_until
        ((⟨n₂ ++ ']' :: rest, n₀, i, true⟩ : IniReader).stream.length + 2) ']'
        ⟨n₂ ++ ']' :: rest, n₀, i, true⟩ [] =
        some (⟨rest, ']', i, true⟩,
          [] ++ (n₀ :: n₂).filter (fun c => !is_whitespace c)) := by
      refine scan_run n₂.length n₂ (le_refl _) n₀ ']' rest i [] _ hn₀
        ((hname n₀ (by simp)).2) (by decide)
        (fun c hc => (hname c (by simp [hc])).2) ?_
      simp only [List.length_append, List.length_cons]
      omega
    have hfilter : (n₀ :: n₂).filter (fun c => !is_whitespace c) = n₀ :: n₂ :=
      List.filter_eq_self.mpr (fun c hc => by simp [(hname c hc).1])
    rw [hfilter] at hscan
    have h2 := match_token_run ⟨rest, ']', i, true⟩ ']' "parse_section" rfl
    rw [show get_next_char ⟨rest, ']', i, true⟩ = mid_state rest i from
      gnc_next_irrel rest i true ']' ' '] at h2
    have := parse_section_name_ok hmt hscan h2
    simpa using this

theorem clean_char_spec {c : Char} (h : clean_char c = true) :
    c ≠ ';' ∧ c ≠ '[' ∧ c ≠ ']' ∧ c ≠ '=' ∧ c ≠ '\n' := by
  refine ⟨?_, ?_, ?_, ?_, ?_⟩ <;>
    (intro hx; rw [hx] at h; exact absurd h (by decide))

theorem rt_text_spec {t : List Char} (h : rt_text t) :
    t ≠ [] ∧ trim t = t ∧ '\n' ∉ t ∧ ∀ c ∈ t, clean_char c = true := by
  obtain ⟨⟨h1, h2, h3⟩, h4⟩ := h
  refine ⟨h1, h2, h3, ?_⟩
  intro c hc
  exact List.all_eq_true.mp h4 c hc

theorem trim_head_of_self {t₀ : Char} {t₂ : List Char} (h : trim (t₀ :: t₂) = t₀ :: t₂) :
    is_whitespace t₀ = false :=
  trim_head_not_ws h

theorem parse_section_loop_run : ∀ (ks : List SectionEntry) (rest_r : List Char)
    (i : IniFile) (acc : List SectionEntry) (s : IniReader) (fuel : Nat),
    (∀ e ∈ ks, rt_key e) →
    (rest_r = [] ∨ ∃ rr, rest_r = '[' :: rr) →
    skip_to (write_entries ks ++ '\n' :: rest_r) i s →
    ks.length + 1 ≤ fuel →
    ∃ s₂, parse_section_loop fuel s acc = some (Except.ok (acc ++ ks), s₂) ∧
      skip_to rest_r i s₂
  | [], rest_r, i, acc, s, fuel, hks, hrr, hskip, hfuel => by
    have hskip2 : skip_to rest_r i s := by
      have : skip_to ('\n' :: rest_r) i s := by
        simpa [write_entries] using hskip
      exact skip_to_ws_cons (by decide) this
    cases fuel with
    | zero => omega
    | succ f =>
      rcases hrr with hnil | ⟨rr, hcons⟩
      · subst hnil
        obtain ⟨hstream, hgood, hini⟩ := skip_to_end hskip2 rfl
        rw [parse_section_loop, if_neg (by rw [hgood]; simp)]
        refine ⟨s, by simp, Or.inr ⟨rfl, hstream, hgood, hini⟩⟩
      · subst hcons
        have hdw : ('[' :: rr).dropWhile is_whitespace = '[' :: rr :=
          dropWhile_cons_false (by decide)
        have hs := skip_to_state hskip2 hdw
        subst hs
        rw [parse_section_loop, if_pos rfl,
          if_neg (by intro hx; exact absurd hx (show ¬ (('[' : Char) = ';') by decide)),
          if_pos rfl]
        exact ⟨_, by simp, Or.inl ⟨'[', rr, hdw, rfl⟩⟩
  | SectionEntry.Comment t :: ks', rest_r, i, acc, s, fuel, hks, hrr, hskip, hfuel => by
    exact absurd (hks (SectionEntry.Comment t) (List.mem_cons_self _ _))
      (by rintro ⟨n, v, hnv, _⟩; simp at hnv)
  | SectionEntry.Key n v :: ks', rest_r, i, acc, s, fuel, hks, hrr, hskip, hfuel => by
    obtain ⟨nn, vv, hnv, hn, hv⟩ := hks (SectionEntry.Key n v) (List.mem_cons_self _ _)
    injection hnv with h1 h2
    subst h1
    subst h2
    obtain ⟨hvne, hvtrim, hvnl, hvclean⟩ := rt_text_spec hv
    obtain ⟨v₀, v₂, hvcons⟩ := List.exists_cons_of_ne_nil hvne
    have hv₀ : is_whitespace v₀ = false := trim_head_of_self (by rw [← hvcons]; rw [hvcons] at hvtrim ⊢; exact hvtrim)
    have hvdrop : (' ' :: v).dropWhile is_whitespace ≠ [] := by
      rw [List.dropWhile_cons, if_pos (by decide), hvcons,
        dropWhile_cons_false hv₀]
      simp
    have hvnl2 : '\n' ∉ ' ' :: v := by
      intro hx
      rcases List.mem_cons.mp hx with hx | hx
      · exact absurd hx.symm (by decide)
      · exact hvnl hx
    have htrimv : trim (' ' :: v) = v := by
      rw [show (' ' :: v) = [' '] ++ v from rfl,
        trim_ws_front v (by intro c hc; simp at hc; rw [hc]; decide), hvtrim]
    have hREST : write_entries (SectionEntry.Key n v :: ks') ++ '\n' :: rest_r =
        n ++ (' ' :: '=' :: ' ' :: (v ++ '\n' ::
          (write_entries ks' ++ '\n' :: rest_r))) := by
      show (write_section_entry (SectionEntry.Key n v) ++ write_entries ks') ++
          '\n' :: rest_r = _
      rw [show write_section_entry (SectionEntry.Key n v) =
        n ++ (' ' :: '=' :: ' ' :: (v ++ ['\n'])) from rfl]
      simp
    cases fuel with
    | zero => simp at hfuel
    | succ f =>
      cases hncase : n with
      | nil =>
        subst hncase
        rw [hREST] at hskip
        have hdw : (([] : List Char) ++ (' ' :: '=' :: ' ' :: (v ++ '\n' ::
            (write_entries ks' ++ '\n' :: rest_r)))).dropWhile is_whitespace =
            '=' :: (' ' :: (v ++ '\n' :: (write_entries ks' ++ '\n' :: rest_r))) := by
          rw [List.nil_append, List.dropWhile_cons, if_pos (by decide),
            dropWhile_cons_false (by decide)]
        have hs := skip_to_state hskip hdw
        subst hs
        rw [parse_section_loop, if_pos rfl,
          if_neg (by intro hx; exact absurd hx (show ¬ (('=' : Char) = ';') by decide)),
          if_neg (by intro hx; exact absurd hx (show ¬ (('=' : Char) = '[') by decide))]
        have hpk : parse_key ⟨' ' :: (v ++ '\n' ::
            (write_entries ks' ++ '\n' :: rest_r)), '=', i, true⟩ =
            (ParseResult.StepOk (IniItem.Key [] v),
              mid_state (write_entries ks' ++ '\n' :: rest_r) i) := by
          have := parse_key_run_empty (' ' :: v)
            (write_entries ks' ++ '\n' :: rest_r) i hvnl2 hvdrop
          rw [htrimv] at this
          simpa using this
        rw [hpk]
        obtain ⟨s₂, hrec, hskip₂⟩ := parse_section_loop_run ks' rest_r i
          (acc ++ section_push (IniItem.Key [] v))
          (mid_state (write_entries ks' ++ '\n' :: rest_r) i) f
          (fun e he => hks e (by simp [he])) hrr
          (skip_to_mid _ i) (by simp at hfuel; omega)
        refine ⟨s₂, ?_, hskip₂⟩
        show parse_section_loop f (mid_state (write_entries ks' ++ '\n' :: rest_r) i)
          (acc ++ section_push (IniItem.Key [] v)) = _
        rw [hrec]
        simp [section_push]
      | cons n₀ n₂ =>
        subst hncase
        rw [hREST] at hskip
        have hn₀ : is_whitespace n₀ = false := (hn n₀ (by simp)).1
        have hn₀c := clean_char_spec (hn n₀ (by simp)).2
        have hdw : ((n₀ :: n₂) ++ (' ' :: '=' :: ' ' :: (v ++ '\n' ::
            (write_entries ks' ++ '\n' :: rest_r)))).dropWhile is_whitespace =
            n₀ :: (n₂ ++ (' ' :: '=' :: ' ' :: (v ++ '\n' ::
              (write_entries ks' ++ '\n' :: rest_r)))) := by
          rw [List.cons_append]
          exact dropWhile_cons_false hn₀
        have hs := skip_to_state hskip hdw
        subst hs
        rw [parse_section_loop, if_pos rfl, if_neg (by simpa using hn₀c.1),
          if_neg (by simpa using hn₀c.2.1)]
        have hshape : n₂ ++ (' ' :: '=' :: ' ' :: (v ++ '\n' ::
            (write_entries ks' ++ '\n' :: rest_r))) =
            (n₂ ++ [' ']) ++ '=' :: ((' ' :: v) ++ '\n' ::
              (write_entries ks' ++ '\n' :: rest_r)) := by
          simp
        have hpk : parse_key ⟨n₂ ++ (' ' :: '=' :: ' ' :: (v ++ '\n' ::
            (write_entries ks' ++ '\n' :: rest_r))), n₀, i, true⟩ =
            (ParseResult.StepOk (IniItem.Key (n₀ :: n₂) v),
              mid_state (write_entries ks' ++ '\n' :: rest_r) i) := by
          rw [hshape]
          have := parse_key_run n₀ (n₂ ++ [' ']) (' ' :: v)
            (write_entries ks' ++ '\n' :: rest_r) i hn₀ hn₀c.2.2.2.1
            (by
              intro c hc
              rcases List.mem_append.mp hc with hc | hc
              · exact (clean_char_spec (hn c (by simp [hc])).2).2.2.2.1
              · rw [List.mem_singleton.mp hc]; decide)
            hvnl2 hvdrop
          rw [htrimv] at this
          rw [this]
          have hfilter : (n₀ :: (n₂ ++ [' '])).filter (fun c => !is_whitespace c) =
              n₀ :: n₂ := by
            rw [List.filter_cons_of_pos (by simp [hn₀]), List.filter_append]
            rw [List.filter_eq_self.mpr (fun c hc => by simp [(hn c (by simp [hc])).1])]
            rw [List.filter_eq_nil_iff.mpr
              (by intro a ha; rw [List.mem_singleton] at ha; subst ha; decide)]
            simp
          rw [hfilter]
        rw [hpk]
        obtain ⟨s₂, hrec, hskip₂⟩ := parse_section_loop_run ks' rest_r i
          (acc ++ section_push (IniItem.Key (n₀ :: n₂) v))
          (mid_state (write_entries ks' ++ '\n' :: rest_r) i) f
          (fun e he => hks e (by simp [he])) hrr
          (skip_to_mid _ i) (by simp at hfuel; omega)
        refine ⟨s₂, ?_, hskip₂⟩
        show parse_section_loop f (mid_state (write_entries ks' ++ '\n' :: rest_r) i)
          (acc ++ section_push (IniItem.Key (n₀ :: n₂) v)) = _
        rw [hrec]
        simp [section_push]

theorem write_section_entry_len (e : SectionEntry) :
    1 ≤ (write_section_entry e).length := by
  cases e with
  | Comment c => simp [write_section_entry]
  | Key n v =>
    simp [write_section_entry]
    omega

theorem write_entries_len (ks : List SectionEntry) :
    ks.length ≤ (write_entries ks).length := by
  induction ks with
  | nil => simp [write_entries]
  | cons e ks ih =>
    rw [show write_entries (e :: ks) = write_section_entry e ++ write_entries ks from rfl]
    have := write_section_entry_len e
    simp only [List.length_append, List.length_cons]
    omega

theorem write_entry_len (e : Entry) : 1 ≤ (write_entry e).length := by
  cases e <;> simp [write_entry, write_section]

theorem write_ini_file_len (d : IniFile) : d.length ≤ (write_ini_file d).length := by
  induction d with
  | nil => simp [write_ini_file]
  | cons e d ih =>
    rw [show write_ini_file (e :: d) = write_entry e ++ write_ini_file d from rfl]
    have := write_entry_len e
    simp only [List.length_append, List.length_cons]
    omega

theorem skip_to_len {X : List Char} {i : IniFile} {s : IniReader} (h : skip_to X i s) :
    (X.dropWhile is_whitespace).length ≤ s.stream.length + 1 := by
  rcases h with ⟨c, rest, heq, hs⟩ | ⟨heq, _, _, _⟩
  · rw [heq, hs]
    simp
  · rw [heq]
    simp

theorem entries_takeWhile_le (e : SectionEntry) (ks : List SectionEntry) (tail : List Char)
    (hks : ∀ x ∈ e :: ks, rt_key x) :
    (List.takeWhile is_whitespace (write_entries (e :: ks) ++ tail)).length ≤ 1 := by
  obtain ⟨n, v, hnv, hn, hv⟩ := hks e (List.mem_cons_self _ _)
  subst hnv
  rw [show write_entries (SectionEntry.Key n v :: ks) =
    (n ++ (' ' :: '=' :: ' ' :: (v ++ ['\n']))) ++ write_entries ks from rfl]
  cases n with
  | nil =>
    rw [show (([] : List Char) ++ (' ' :: '=' :: ' ' :: (v ++ ['\n']))) ++
        write_entries ks ++ tail =
        ' ' :: '=' :: (' ' :: (v ++ ['\n']) ++ write_entries ks ++ tail) from by simp]
    rw [List.takeWhile_cons, if_pos (by decide), List.takeWhile_cons,
      if_neg (by decide)]
    simp
  | cons n₀ n₂ =>
    have hn₀ : is_whitespace n₀ = false := (hn n₀ (by simp)).1
    rw [show ((n₀ :: n₂ ++ (' ' :: '=' :: ' ' :: (v ++ ['\n']))) ++
        write_entries ks) ++ tail =
        n₀ :: ((n₂ ++ (' ' :: '=' :: ' ' :: (v ++ ['\n']))) ++
          write_entries ks ++ tail) from by simp]
    rw [List.takeWhile_cons, if_neg (by simp [hn₀])]
    simp

theorem entries_stream_bound (entries : List SectionEntry) (tail : List Char)
    (i : IniFile) (s : IniReader)
    (hks : ∀ e ∈ entries, rt_key e)
    (htail : 1 ≤ tail.length)
    (h : skip_to (write_entries entries ++ tail) i s) :
    entries.length + 1 ≤ s.stream.length + 2 := by
  cases entries with
  | nil =>
    simp only [List.length_nil]
    omega
  | cons e ks' =>
    have h1 := skip_to_len h
    have h2 : (List.takeWhile is_whitespace (write_entries (e :: ks') ++ tail)).length +
        (List.dropWhile is_whitespace (write_entries (e :: ks') ++ tail)).length =
        (write_entries (e :: ks') ++ tail).length := by
      conv_rhs => rw [← List.takeWhile_append_dropWhile is_whitespace
        (write_entries (e :: ks') ++ tail)]
      rw [List.length_append]
    have h3 := entries_takeWhile_le e ks' tail hks
    have h5 := write_entries_len (e :: ks')
    rw [List.length_append] at h2
    simp only [List.length_cons] at h5 ⊢
    omega

theorem parse_section_run (name : List Char) (entries : List SectionEntry)
    (rest_r : List Char) (i : IniFile)
    (hname : ∀ c ∈ name, is_whitespace c = false ∧ clean_char c = true)
    (hentries : ∀ e ∈ entries, rt_key e)
    (hrr : rest_r = [] ∨ ∃ rr, rest_r = '[' :: rr) :
    ∃ s₂, parse_section ⟨name ++ ']' :: '\n' ::
        (write_entries entries ++ '\n' :: rest_r), '[', i, true⟩ =
      (ParseResult.StepOk
        (IniItem.Entry (Entry.Section { name := name, entries := entries })), s₂) ∧
      skip_to rest_r i s₂ := by
  have hpsn := parse_section_name_run name
    ('\n' :: (write_entries entries ++ '\n' :: rest_r)) i
    (fun c hc => ⟨(hname c hc).1, (clean_char_spec (hname c hc).2).2.2.1⟩)
  set s₁ := mid_state ('\n' :: (write_entries entries ++ '\n' :: rest_r)) i with hs₁
  have hskip₁ : skip_to (write_entries entries ++ '\n' :: rest_r) i s₁ :=
    skip_to_ws_cons (by decide) (skip_to_mid _ i)
  have hfuel : entries.length + 1 ≤ s₁.stream.length + 2 :=
    entries_stream_bound entries ('\n' :: rest_r) i s₁ hentries (by simp) hskip₁
  obtain ⟨s₂, hpsl, hskip₂⟩ := parse_section_loop_run entries rest_r i []
    s₁ (s₁.stream.length + 2) hentries hrr hskip₁ hfuel
  refine ⟨s₂, ?_, hskip₂⟩
  rw [parse_section_eq_ok hpsn hpsl]
  simp

theorem skip_to_push {X : List Char} {i : IniFile} {s : IniReader} (e : Entry)
    (h : skip_to X i s) :
    skip_to X (i ++ [e]) { s with ini := s.ini ++ [e] } := by
  rcases h with ⟨c, rest, heq, hs⟩ | ⟨hall, h1, h2, h3⟩
  · subst hs
    exact Or.inl ⟨c, rest, heq, rfl⟩
  · right
    refine ⟨hall, h1, h2, ?_⟩
    show s.ini ++ [e] = i ++ [e]
    rw [h3]

theorem parse_loop_run_secs : ∀ (ss : List Section) (i : IniFile) (s : IniReader)
    (fuel : Nat),
    (∀ sec ∈ ss, rt_sec sec) →
    skip_to (write_ini_file (ss.map Entry.Section)) i s →
    ss.length + 1 ≤ fuel →
    ∃ s₂, parse_loop fuel s = some (ParseResult.Ok, s₂) ∧
      s₂.ini = i ++ ss.map Entry.Section
  | [], i, s, fuel, hss, hskip, hfuel => by
    obtain ⟨f, rfl⟩ : ∃ f, fuel = f + 1 := ⟨fuel - 1, by omega⟩
    have hend := skip_to_end hskip (by simp [write_ini_file])
    refine ⟨s, ?_, by rw [hend.2.2]; simp⟩
    simp only [parse_loop, hend.2.1]
    simp
  | sec :: ss', i, s, fuel, hss, hskip, hfuel => by
    obtain ⟨f, rfl⟩ : ∃ f, fuel = f + 1 := ⟨fuel - 1, by omega⟩
    obtain ⟨name, entries⟩ := sec
    have hW : write_ini_file (((⟨name, entries⟩ : Section) :: ss').map Entry.Section) =
        '[' :: (name ++ ']' :: '\n' :: (write_entries entries ++ '\n' ::
          write_ini_file (ss'.map Entry.Section))) := by
      simp [write_ini_file, write_entry, write_section]
    rw [hW] at hskip
    have hs : s = ⟨name ++ ']' :: '\n' :: (write_entries entries ++ '\n' ::
        write_ini_file (ss'.map Entry.Section)), '[', i, true⟩ :=
      skip_to_state hskip (dropWhile_cons_false (by decide))
    subst hs
    have hrt := hss ⟨name, entries⟩ (List.mem_cons_self _ _)
    have hside : write_ini_file (ss'.map Entry.Section) = [] ∨
        ∃ rr, write_ini_file (ss'.map Entry.Section) = '[' :: rr := by
      cases ss' with
      | nil => exact Or.inl rfl
      | cons sec₂ ss₂ =>
        exact Or.inr ⟨(sec₂.name ++ (']' :: '\n' :: write_entries sec₂.entries)) ++
          '\n' :: write_ini_file (ss₂.map Entry.Section),
          by simp [write_ini_file, write_entry, write_section]⟩
    obtain ⟨s₁, hps, hskip₁⟩ := parse_section_run name entries
      (write_ini_file (ss'.map Entry.Section)) i hrt.1 hrt.2 hside
    have hskip₂ := skip_to_push (Entry.Section ⟨name, entries⟩) hskip₁
    obtain ⟨s₂, hloop, hini⟩ := parse_loop_run_secs ss'
      (i ++ [Entry.Section ⟨name, entries⟩])
      { s₁ with ini := s₁.ini ++ [Entry.Section ⟨name, entries⟩] } f
      (fun x hx => hss x (List.mem_cons_of_mem _ hx)) hskip₂
      (by simp only [List.length_cons] at hfuel; omega)
    refine ⟨s₂, ?_, by rw [hini]; simp⟩
    simp only [parse_loop]
    rw [if_pos trivial, if_neg (show ¬(('[' : Char) = ';') by decide), hps]
    exact hloop

theorem parse_loop_run_top : ∀ (cs : List (List Char)) (ss : List Section)
    (i : IniFile) (s : IniReader) (fuel : Nat),
    (∀ t ∈ cs, rt_text t) → (∀ sec ∈ ss, rt_sec sec) →
    skip_to (write_ini_file (cs.map Entry.Comment ++ ss.map Entry.Section)) i s →
    cs.length + ss.length + 1 ≤ fuel →
    ∃ s₂, parse_loop fuel s = some (ParseResult.Ok, s₂) ∧
      s₂.ini = i ++ (cs.map Entry.Comment ++ ss.map Entry.Section)
  | [], ss, i, s, fuel, hcs, hss, hskip, hfuel => by
    obtain ⟨s₂, hloop, hini⟩ := parse_loop_run_secs ss i s fuel hss
      (by simpa using hskip) (by omega)
    exact ⟨s₂, hloop, by rw [hini]; simp⟩
  | t :: cs', ss, i, s, fuel, hcs, hss, hskip, hfuel => by
    obtain ⟨f, rfl⟩ : ∃ f, fuel = f + 1 := ⟨fuel - 1, by omega⟩
    have hW : write_ini_file ((t :: cs').map Entry.Comment ++ ss.map Entry.Section) =
        ';' :: ' ' :: (t ++ '\n' ::
          write_ini_file (cs'.map Entry.Comment ++ ss.map Entry.Section)) := by
      simp [write_ini_file, write_entry]
    rw [hW] at hskip
    have hs : s = ⟨' ' :: (t ++ '\n' ::
        write_ini_file (cs'.map Entry.Comment ++ ss.map Entry.Section)), ';', i, true⟩ :=
      skip_to_state hskip (dropWhile_cons_false (by decide))
    subst hs
    have hrt := hcs t (List.mem_cons_self _ _)
    obtain ⟨hne, htr, hnl, _⟩ := rt_text_spec hrt
    have hpc := parse_comment_run t
      (write_ini_file (cs'.map Entry.Comment ++ ss.map Entry.Section)) i true hne htr hnl
    rw [if_pos rfl] at hpc
    have hskip₁ := skip_to_push (Entry.Comment t)
      (skip_to_mid (write_ini_file (cs'.map Entry.Comment ++ ss.map Entry.Section)) i)
    obtain ⟨s₂, hloop, hini⟩ := parse_loop_run_top cs' ss (i ++ [Entry.Comment t])
      { mid_state (write_ini_file (cs'.map Entry.Comment ++ ss.map Entry.Section)) i with
        ini := (mid_state (write_ini_file (cs'.map Entry.Comment ++
          ss.map Entry.Section)) i).ini ++ [Entry.Comment t] } f
      (fun x hx => hcs x (List.mem_cons_of_mem _ hx)) hss hskip₁
      (by simp only [List.length_cons] at hfuel; omega)
    refine ⟨s₂, ?_, by rw [hini]; simp⟩
    simp only [parse_loop]
    rw [if_pos trivial, if_pos trivial, hpc]
    exact hloop

theorem produced_clean_rt (D : IniFile) (hp : produced_doc D) (hc : clean_doc D = true) :
    ∃ (cs : List (List Char)) (ss : List Section),
      D = cs.map Entry.Comment ++ ss.map Entry.Section ∧
      (∀ t ∈ cs, rt_text t) ∧ (∀ sec ∈ ss, rt_sec sec) := by
  obtain ⟨cs, ss, hD, hcs, hss⟩ := hp
  have hcd : ∀ e ∈ D, clean_entry e = true := List.all_eq_true.mp hc
  refine ⟨cs, ss, hD, ?_, ?_⟩
  · intro t ht
    have hmem : Entry.Comment t ∈ D := by
      rw [hD]
      exact List.mem_append_left _ (List.mem_map_of_mem _ ht)
    exact ⟨hcs t ht, hcd _ hmem⟩
  · intro sec hsec
    have hmem : Entry.Section sec ∈ D := by
      rw [hD]
      exact List.mem_append_right _ (List.mem_map_of_mem _ hsec)
    have hce := hcd _ hmem
    simp only [clean_entry, Bool.and_eq_true] at hce
    obtain ⟨hname, hent⟩ := hce
    refine ⟨?_, ?_⟩
    · intro c hcm
      exact ⟨((hss sec hsec).1 c hcm).1, List.all_eq_true.mp hname c hcm⟩
    · intro e he
      have hpe := (hss sec hsec).2 e he
      have hce := List.all_eq_true.mp hent e he
      cases e with
      | Comment t => exact absurd hpe (by simp [produced_entry])
      | Key n v =>
        have hce₂ : (clean_text n && clean_text v) = true := hce
        simp only [Bool.and_eq_true] at hce₂
        refine ⟨n, v, rfl, ?_, hpe.2, hce₂.2⟩
        intro c hcm
        exact ⟨(hpe.1.1 c hcm).1, List.all_eq_true.mp hce₂.1 c hcm⟩

theorem write_doc_stream_bound (D : IniFile) (i : IniFile) (s : IniReader)
    (h : skip_to (write_ini_file D) i s) :
    D.length + 1 ≤ s.stream.length + 2 := by
  cases D with
  | nil =>
    simp only [List.length_nil]
    omega
  | cons e D₂ =>
    have h1 := skip_to_len h
    have hdw : List.dropWhile is_whitespace (write_ini_file (e :: D₂)) =
        write_ini_file (e :: D₂) := by
      cases e with
      | Comment c =>
        rw [show write_ini_file (Entry.Comment c :: D₂) =
          ';' :: (' ' :: (c ++ ['\n']) ++ write_ini_file D₂) from by
            simp [write_ini_file, write_entry]]
        exact dropWhile_cons_false (by decide)
      | Section sec =>
        rw [show write_ini_file (Entry.Section sec :: D₂) =
          '[' :: ((sec.name ++ (']' :: '\n' :: write_entries sec.entries)) ++
            '\n' :: write_ini_file D₂) from by
            simp [write_ini_file, write_entry, write_section]]
        exact dropWhile_cons_false (by decide)
    rw [hdw] at h1
    have h2 := write_ini_file_len (e :: D₂)
    simp only [List.length_cons] at h2 ⊢
    omega

theorem write_parse_roundtrip (D : IniFile) (hp : produced_doc D)
    (hc : clean_doc D = true) :
    (parse_file (write_ini_file D)).1 = ParseResult.Ok ∧
    (parse_file (write_ini_file D)).2.ini = D := by
  obtain ⟨cs, ss, hD, hcs, hss⟩ := produced_clean_rt D hp hc
  have hskip : skip_to (write_ini_file D) []
      (get_next_char (init_reader (write_ini_file D))) := by
    rw [show get_next_char (init_reader (write_ini_file D)) =
      mid_state (write_ini_file D) [] from rfl]
    exact skip_to_mid _ _
  have hfuel : cs.length + ss.length + 1 ≤
      (get_next_char (init_reader (write_ini_file D))).stream.length + 2 := by
    have hb := write_doc_stream_bound D [] _ hskip
    have hlen : D.length = cs.length + ss.length := by
      rw [hD]
      simp
    omega
  have hload : skip_to (write_ini_file (cs.map Entry.Comment ++ ss.map Entry.Section)) []
      (get_next_char (init_reader (write_ini_file D))) := by
    rw [← hD]
    exact hskip
  obtain ⟨s₂, hloop, hini⟩ := parse_loop_run_top cs ss []
    (get_next_char (init_reader (write_ini_file D)))
    ((get_next_char (init_reader (write_ini_file D))).stream.length + 2)
    hcs hss hload hfuel
  have hpf : parse_file (write_ini_file D) = (ParseResult.Ok, s₂) := parse_eq hloop
  rw [hpf]
  refine ⟨rfl, ?_⟩
  rw [hini, ← hD]
  simp

/-! ## The claims -/

/-- Claim C1 (confirmed): round-trip law.  Every document `D` the parser can
produce (`produced_doc D`) in which no section name, key name, value or
comment text contains `';'`, `'['`, `']'`, `'='` or a newline
(`clean_doc D = true`) serializes by `write_ini_file` to text that
`parse_file` accepts, yielding exactly `D` again — same entry order, section
names and key/value/comment content. -/
theorem C1_roundtrip (D : IniFile) (hp : produced_doc D) (hc : clean_doc D = true) :
    (parse_file (write_ini_file D)).1 = ParseResult.Ok ∧
    (parse_file (write_ini_file D)).2.ini = D :=
  write_parse_roundtrip D hp hc

theorem C1_roundtrip_witness :
    (parse_file (write_ini_file [Entry.Comment ['h'],
      Entry.Section { name := ['S'], entries := [SectionEntry.Key ['k'] ['v']] }])).1 =
      ParseResult.Ok ∧
    (parse_file (write_ini_file [Entry.Comment ['h'],
      Entry.Section { name := ['S'], entries := [SectionEntry.Key ['k'] ['v']] }])).2.ini =
      [Entry.Comment ['h'],
        Entry.Section { name := ['S'], entries := [SectionEntry.Key ['k'] ['v']] }] := by
  refine C1_roundtrip _
    ⟨[['h']], [{ name := ['S'], entries := [SectionEntry.Key ['k'] ['v']] }],
      rfl, ?_, ?_⟩ (by decide)
  · intro t ht
    rw [List.mem_singleton] at ht
    subst ht
    exact ⟨by decide, by decide, by decide⟩
  · intro sec hsec
    rw [List.mem_singleton] at hsec
    subst hsec
    refine ⟨?_, ?_⟩
    · intro c hc
      rw [List.mem_singleton] at hc
      subst hc
      exact ⟨by decide, by decide⟩
    · intro e he
      rw [List.mem_singleton] at he
      subst he
      refine ⟨⟨?_, ?_⟩, by decide, by decide, by decide⟩
      · intro c hc
        rw [List.mem_singleton] at hc
        subst hc
        exact ⟨by decide, by decide⟩
      · intro c hc
        have hck : c = 'k' := (Option.some.inj hc).symm
        subst hck
        exact ⟨by decide, by decide⟩

/-- Claim C2 (code bug): on `"[A]\n; c\nk=v\n[B]\n"` the parse succeeds with
section `A` holding ONLY `Key("k","v")` — the in-section comment `"c"` is
parsed but silently dropped, because the push arm in `parse_section`
matches `IniItem::Comment`, a variant `parse_comment(false)` never returns
(it returns `IniItem::SectionEntry`).  This refutes the claimed entry list
`[Comment("c"), Key("k","v")]`. -/
theorem C2_section_comment_dropped :
    (parse_file "[A]\n; c\nk=v\n[B]\n".data).1 = ParseResult.Ok ∧
    (parse_file "[A]\n; c\nk=v\n[B]\n".data).2.ini =
      [Entry.Section { name := ['A'], entries := [SectionEntry.Key ['k'] ['v']] },
       Entry.Section { name := ['B'], entries := [] }] ∧
    (parse_file "[A]\n; c\nk=v\n[B]\n".data).2.ini ≠
      [Entry.Section
          { name := ['A'],
            entries := [SectionEntry.Comment ['c'], SectionEntry.Key ['k'] ['v']] },
       Entry.Section { name := ['B'], entries := [] }] :=
  ⟨by decide, by decide, by decide⟩

/-- Claim C3 (corrected): the lookahead-advancing step `get_next_char` skips
EVERY character for which Rust `char::is_whitespace` holds — and that
includes the newline, contrary to the claim that newlines are never
silently consumed between tokens.  Amended rule: the lookahead always lands
on the first non-whitespace character of the stream, whatever whitespace
(newlines included) precedes it. -/
theorem C3_gnc_skips_newline (pre : List Char) (c : Char) (rest : List Char)
    (x : Char) (i : IniFile) (g : Bool)
    (hpre : ∀ w ∈ pre, is_whitespace w = true) (hc : is_whitespace c = false) :
    is_whitespace '\n' = true ∧
    get_next_char ⟨pre ++ c :: rest, x, i, g⟩ = (⟨rest, c, i, g⟩ : IniReader) :=
  ⟨by decide, gnc_run pre rest x i g hpre hc⟩

theorem C3_gnc_skips_newline_witness :
    is_whitespace '\n' = true ∧
    get_next_char ⟨['\n'] ++ 'a' :: [], ' ', [], true⟩ = (⟨[], 'a', [], true⟩ : IniReader) :=
  C3_gnc_skips_newline ['\n'] 'a' [] ' ' [] true (by decide) (by decide)

/-- Counterexample for C3: the skip relation treats the newline as
whitespace, and parsing `"[A\nB]\nk=v\n"` joins `A`, the newline and the
`B` of the next line into the single section name `"AB"` — a `'['` and text
on the line after it ARE joined into the same construct. -/
theorem C3_newline_joined :
    is_whitespace '\n' = true ∧
    (parse_file "[A\nB]\nk=v\n".data).1 = ParseResult.Ok ∧
    (parse_file "[A\nB]\nk=v\n".data).2.ini =
      [Entry.Section { name := ['A', 'B'], entries := [SectionEntry.Key ['k'] ['v']] }] :=
  ⟨by decide, by decide, by decide⟩

/-- Claim C4 (corrected): the name of a stored key is NOT the raw text
before `'='` trimmed at the edges: characters are fetched through
`get_next_char`, which discards every whitespace character, interior ones
included, so the stored name is the whitespace-FILTERED sequence of
characters before the first `'='`.  The value is the trim of the rest of
the line, as claimed. -/
theorem C4_key_name_filtered (c₀ : Char) (l m rest : List Char) (i : IniFile)
    (hc₀ : is_whitespace c₀ = false) (hc₀ne : c₀ ≠ '=')
    (hl : ∀ c ∈ l, c ≠ '=') (hm : '\n' ∉ m) (hd : m.dropWhile is_whitespace ≠ []) :
    parse_key ⟨l ++ '=' :: (m ++ '\n' :: rest), c₀, i, true⟩ =
      (ParseResult.StepOk
        (IniItem.Key ((c₀ :: l).filter (fun c => !is_whitespace c)) (trim m)),
        mid_state rest i) :=
  parse_key_run c₀ l m rest i hc₀ hc₀ne hl hm hd

theorem C4_key_name_filtered_witness :
    parse_key ⟨[' ', 'b'] ++ '=' :: (['c'] ++ '\n' :: []), 'a', [], true⟩ =
      (ParseResult.StepOk
        (IniItem.Key (('a' :: [' ', 'b']).filter (fun c => !is_whitespace c))
          (trim ['c'])),
        mid_state [] []) :=
  C4_key_name_filtered 'a' [' ', 'b'] ['c'] [] [] (by decide) (by decide)
    (by decide) (by decide) (by decide)

/-- Counterexample for C4: the key line `"a b=c"` stores the name `"ab"`,
not the edge-trimmed `"a b"` the claim prescribes — the interior space is
lost, and trimming `"a b"` would have kept it. -/
theorem C4_interior_whitespace_lost :
    (parse_file "[S]\na b=c\n".data).1 = ParseResult.Ok ∧
    (parse_file "[S]\na b=c\n".data).2.ini =
      [Entry.Section { name := ['S'], entries := [SectionEntry.Key ['a', 'b'] ['c']] }] ∧
    ['a', 'b'] ≠ trim ['a', ' ', 'b'] :=
  ⟨by decide, by decide, by decide⟩

/-- Claim C5 (corrected): errors do abort the parse immediately, but the
claim that no partial document is made available is false: `parse` pushes
each completed top-level entry directly onto the reader's public `ini`
field and never clears it, so after an error the field retains every entry
parsed before the failing construct.  Amended property: across any run of
the top-level loop the starting `ini` is a prefix of the final `ini` —
entries are only appended, never reset. -/
theorem C5_ini_prefix_monotone (fuel : Nat) (s : IniReader)
    (res : ParseResult × IniReader) (h : parse_loop fuel s = some res) :
    s.ini <+: res.2.ini :=
  parse_loop_prefix fuel s h

theorem C5_ini_prefix_monotone_witness :
    (⟨[], ' ', [Entry.Comment ['a']], false⟩ : IniReader).ini <+:
      (ParseResult.Ok, (⟨[], ' ', [Entry.Comment ['a']], false⟩ : IniReader)).2.ini :=
  C5_ini_prefix_monotone 1 ⟨[], ' ', [Entry.Comment ['a']], false⟩
    (ParseResult.Ok, ⟨[], ' ', [Entry.Comment ['a']], false⟩) (by decide)

/-- Counterexample for C5: `"; a\nk=v\n"` fails (key line before any section
header), yet the reader ends with `ini = [Comment("a")]` — the comment
parsed before the failure remains available to the caller, so the document
is NOT unchanged from its pre-parse empty state. -/
theorem C5_partial_document_left :
    (parse_file "; a\nk=v\n".data).1 =
      ParseResult.Err (err_expected "parse_section" '[' 'k') ∧
    (parse_file "; a\nk=v\n".data).2.ini = [Entry.Comment ['a']] ∧
    (parse_file "; a\nk=v\n".data).2.ini ≠ [] :=
  ⟨by decide, by decide, by decide⟩

/-- Claim C6 (corrected): on `"[A\n"` the parse does fail once the stream
ends, but the error is a SYNTAX error from `match_token`, not an I/O-class
error: the section-name loop stops when `good` clears at end of stream
(the stream is exhausted), and the following `match_token(']')` reports
`expected ']'` against the last lookahead (the `'\n'`).  The
`"IO error: {}"` wrapping of `read_rest` is never involved. -/
theorem C6_unterminated_header_syntax_error :
    (parse_file "[A\n".data).1 =
      ParseResult.Err (err_expected "parse_section" ']' '\n') ∧
    (parse_file "[A\n".data).2.good = false ∧
    (parse_file "[A\n".data).2.stream = [] :=
  ⟨by decide, by decide, by decide⟩

/-- Counterexample for C6: the error `"[A\n"` produces is the one
`match_token` formats for `parse_section` — and it is not an I/O-class
error: it does not start with `"IO error"`. -/
theorem C6_error_not_io :
    is_io_error (err_expected "parse_section" ']' '\n') = false ∧
    (parse_file "[A\n".data).1 =
      ParseResult.Err (err_expected "parse_section" ']' '\n') :=
  ⟨by decide, by decide⟩

/-- Claim C7 (confirmed): parsing `"k = v\n"` — a key line before any
section header — fails with the syntax error built by `match_token` from
the producing rule name `"parse_section"`, the expected token `'['` and the
observed character `'k'`; it is not an I/O-class error. -/
theorem C7_key_before_section :
    (parse_file "k = v\n".data).1 =
      ParseResult.Err (err_expected "parse_section" '[' 'k') ∧
    is_io_error (err_expected "parse_section" '[' 'k') = false :=
  ⟨by decide, by decide⟩

/-- Claim C8 (confirmed): serializing a document holding the single empty
section `S` yields exactly `"[S]\n"` followed by one blank line and nothing
else; and a `Key(k, v)` section entry is rendered as the line
`k ++ " = " ++ v`. -/
theorem C8_serializer_format :
    write_ini_file [Entry.Section { name := ['S'], entries := [] }] =
      ['[', 'S', ']', '\n', '\n'] ∧
    ∀ (k v : List Char),
      write_ini_file [Entry.Section
          { name := ['S'], entries := [SectionEntry.Key k v] }] =
        '[' :: 'S' :: ']' :: '\n' :: (k ++ ' ' :: '=' :: ' ' :: (v ++ ['\n', '\n'])) := by
  refine ⟨by decide, ?_⟩
  intro k v
  simp [write_ini_file, write_entry, write_section, write_entries, write_section_entry]

/-- Claim C9 (confirmed): in every document a successful parse produces,
all top-level comments precede all sections — the document splits as a list
of comments followed by a list of sections, because once `parse_section`
runs, a `';'` line is consumed by the section body loop and never becomes a
top-level entry. -/
theorem C9_comments_precede_sections (input : List Char)
    (h : (parse_file input).1 = ParseResult.Ok) :
    ∃ (cs : List (List Char)) (ss : List Section),
      (parse_file input).2.ini = cs.map Entry.Comment ++ ss.map Entry.Section := by
  obtain ⟨cs, ss, hshape, -, -⟩ := parse_file_produced input h
  exact ⟨cs, ss, hshape⟩

theorem C9_comments_precede_sections_witness :
    ∃ (cs : List (List Char)) (ss : List Section),
      (parse_file "; a\n[S]\n".data).2.ini = cs.map Entry.Comment ++ ss.map Entry.Section :=
  C9_comments_precede_sections "; a\n[S]\n".data (by decide)

/-- Claim C10 (confirmed): for every finite input the parse terminates with
a result — the fuel `stream.length + 2` (which bounds the loop measure:
each iteration of every loop either consumes a character or clears `good`)
is always enough for the top-level loop to return, and the result is
either `Ok` or an error. -/
theorem C10_parse_terminates (input : List Char) :
    ∃ res, parse_loop ((get_next_char (init_reader input)).stream.length + 2)
        (get_next_char (init_reader input)) = some res ∧
      parse_file input = res ∧
      (res.1 = ParseResult.Ok ∨ ∃ e, res.1 = ParseResult.Err e) :=
  parse_file_runs input

end INI
